import Mathlib

/-!
slog: handler registry and dispatch.

A shallow embedding of `slog.h`.  The operations are first embedded as they run
in one thread (there the mutex calls of a build with `SLOG_PTHREAD` have no
effect); the section on threads then embeds `__slog` and
`slog_handlers_register` step by step, with the mutex `__slog_lock`.

* Data pointers are natural numbers, `NULL` is `0`.
* The handler nodes live in a heap, an association list from addresses to node
  contents; `malloc` and `free` act on it.  The address returned by `malloc`
  is an input of the operation that allocates.
* Function pointers are `Option Nat`: `none` is the `NULL` function pointer.
* Callbacks are user code outside the library.  A call through a function
  pointer is recorded as an observable `Call` carrying the arguments passed;
  callbacks are taken to honour the handler contract (they do not write
  through the event pointer and do not call back into the library).
* The `while` loops walk a linked list stored in the heap, so they take fuel;
  the theorems show that any fuel above the length of the list is enough.
-/

namespace Slog

/-! ## Data model -/

/-- Data pointer (address). -/
abbrev Ptr := Nat

/-- The null data pointer. -/
def NULL : Ptr := 0

/-- Function pointer: `none` is the null function pointer. -/
abbrev FnPtr := Option Nat

/-- Enumeration `slog_level_t`: an integer type whose named values are 0..5. -/
abbrev slog_level_t := Int

def SLOG_TRACE : slog_level_t := 0
def SLOG_DEBUG : slog_level_t := 1
def SLOG_INFO : slog_level_t := 2
def SLOG_WARN : slog_level_t := 3
def SLOG_ERROR : slog_level_t := 4
def SLOG_FATAL : slog_level_t := 5

/-- Returns a string representation for the given log level. -/
def slog_level_string (level : slog_level_t) : String :=
  if level = SLOG_TRACE then "TRACE"
  else if level = SLOG_DEBUG then "DEBUG"
  else if level = SLOG_INFO then "INFO"
  else if level = SLOG_WARN then "WARN"
  else if level = SLOG_ERROR then "ERROR"
  else if level = SLOG_FATAL then "FATAL"
  else "UNKNOWN"

/-- Struct `slog_t`.  The `char*` fields are given by the text they point to
(without the terminator). -/
structure slog_t where
  level : slog_level_t
  message : List Char
  time : Int
  file : List Char
  func : List Char
  line : Int
deriving DecidableEq, Repr

/-- Struct `__slog_handler_node`. -/
structure __slog_handler_node where
  handler : FnPtr
  init : FnPtr
  uninit : FnPtr
  next : Ptr
deriving DecidableEq, Repr

/-- An observable call through a function pointer, with its arguments. -/
inductive Call where
  | handler (f : Nat) (log : slog_t) (args : Ptr)
  | init (f : Nat)
  | uninit (f : Nat)
deriving DecidableEq, Repr

/-- Reasons an execution does not complete normally. -/
inductive Fault where
  | invalid_access
  | out_of_fuel
deriving DecidableEq, Repr

/-- The heap of handler nodes: live allocations and their contents. -/
abbrev Heap := List (Ptr × __slog_handler_node)

/-- Contents of the live allocation at `p`, if any. -/
def Heap.read (h : Heap) (p : Ptr) : Option __slog_handler_node :=
  h.lookup p

/-- Library function `free`: the allocation at `p` is no longer live. -/
def free (h : Heap) (p : Ptr) : Heap :=
  h.filter (fun c => c.1 != p)

/-- Stores `n` in the allocation at `p`, making it live. -/
def Heap.write (h : Heap) (p : Ptr) (n : __slog_handler_node) : Heap :=
  (p, n) :: h.filter (fun c => c.1 != p)

/-- Program state: the node heap, the global `__slog_handlers`, and the calls
made through function pointers so far. -/
structure State where
  heap : Heap
  __slog_handlers : Ptr
  trace : List Call
deriving DecidableEq, Repr

/-- State at process start: `__slog_handlers = NULL`, nothing allocated. -/
def State.initial : State := ⟨[], NULL, []⟩

/-! ## Operations -/

/-- Loop of `slog_init`: `while (ptr != NULL)`, calling `ptr->init` when it is
not null, then following `ptr->next`. -/
def slog_init_loop : Nat → Heap → Ptr → List Call → Except Fault (List Call)
  | 0, _, _, _ => .error .out_of_fuel
  | fuel + 1, heap, ptr, trace =>
    if ptr = NULL then .ok trace
    else
      match heap.read ptr with
      | none => .error .invalid_access
      | some node =>
        match node.init with
        | some f => slog_init_loop fuel heap node.next (trace ++ [Call.init f])
        | none => slog_init_loop fuel heap node.next trace

/-- Initialises slog and log handlers. -/
def slog_init (fuel : Nat) (s : State) : Except Fault State :=
  match slog_init_loop fuel s.heap s.__slog_handlers s.trace with
  | .ok trace => .ok { s with trace := trace }
  | .error e => .error e

/-- Loop of `slog_uninit`: `while (current != NULL)`, reading `current->next`,
freeing `current` and moving on. -/
def slog_uninit_loop : Nat → Heap → Ptr → Except Fault Heap
  | 0, _, _ => .error .out_of_fuel
  | fuel + 1, heap, current =>
    if current = NULL then .ok heap
    else
      match heap.read current with
      | none => .error .invalid_access
      | some node => slog_uninit_loop fuel (free heap current) node.next

/-- Uninitialises log handlers and slog.  The global `__slog_handlers` is not
assigned. -/
def slog_uninit (fuel : Nat) (s : State) : Except Fault State :=
  match slog_uninit_loop fuel s.heap s.__slog_handlers with
  | .ok heap => .ok { s with heap := heap }
  | .error e => .error e

/-- Adds a new log handler.  `node` is the address returned by `malloc`; the
four fields are written through it, then it becomes `__slog_handlers`. -/
def slog_handlers_register (s : State) (node : Ptr) (handler init uninit : FnPtr) :
    Except Fault State :=
  if node = NULL then .error .invalid_access
  else
    .ok { s with
      heap := s.heap.write node ⟨handler, init, uninit, s.__slog_handlers⟩
      __slog_handlers := node }

/-- Loop of `__slog`: `while (ptr != NULL)`, calling `ptr->handler(&log, args)`
when it is not null, then following `ptr->next`. -/
def __slog_loop (log : slog_t) (args : Ptr) : Nat → Heap → Ptr → List Call → Except Fault (List Call)
  | 0, _, _, _ => .error .out_of_fuel
  | fuel + 1, heap, ptr, trace =>
    if ptr = NULL then .ok trace
    else
      match heap.read ptr with
      | none => .error .invalid_access
      | some node =>
        match node.handler with
        | some f => __slog_loop log args fuel heap node.next (trace ++ [Call.handler f log args])
        | none => __slog_loop log args fuel heap node.next trace

/-- Function `__slog`: hands the log to every handler of the list. -/
def __slog (fuel : Nat) (s : State) (log : slog_t) (args : Ptr) : Except Fault State :=
  match __slog_loop log args fuel s.heap s.__slog_handlers s.trace with
  | .ok trace => .ok { s with trace := trace }
  | .error e => .error e

/-- Call site of a logging macro: the values of `time(NULL)`, `__FILE__`,
`__PRETTY_FUNCTION__` and `__LINE__` there. -/
structure Site where
  now : Int
  file : List Char
  func : List Char
  line : Int
deriving DecidableEq, Repr

/-- Macro `SLOG_RAW`: log a message with the specified level. -/
def SLOG_RAW (fuel : Nat) (s : State) (site : Site) (level : slog_level_t) (args : Ptr)
    (message : List Char) : Except Fault State :=
  __slog fuel s ⟨level, message, site.now, site.file, site.func, site.line⟩ args

/-- The linked list that starts at `p` in `heap` consists of exactly `nodes`
and ends with the null pointer. -/
def Chain (heap : Heap) : Ptr → List __slog_handler_node → Prop
  | p, [] => p = NULL
  | p, n :: ns => p ≠ NULL ∧ heap.read p = some n ∧ Chain heap n.next ns

/-- The three callbacks stored in a node. -/
def entry (n : __slog_handler_node) : FnPtr × FnPtr × FnPtr :=
  (n.handler, n.init, n.uninit)

/-- The call a node receives when `log` and `args` are dispatched. -/
def delivery (log : slog_t) (args : Ptr) (n : __slog_handler_node) : Option Call :=
  n.handler.map (fun f => Call.handler f log args)

/-- The call a node receives from `slog_init`. -/
def init_call (n : __slog_handler_node) : Option Call :=
  n.init.map Call.init

/-- One call of `slog_handlers_register`: the address `malloc` returns for it
and the three callbacks passed. -/
structure Registration where
  node : Ptr
  handler : FnPtr
  init : FnPtr
  uninit : FnPtr
deriving DecidableEq, Repr

/-- The three callbacks of a registration. -/
def Registration.entry (r : Registration) : FnPtr × FnPtr × FnPtr :=
  (r.handler, r.init, r.uninit)

/-- Calls `slog_handlers_register` once for each registration, in order. -/
def register_all : State → List Registration → Except Fault State
  | s, [] => .ok s
  | s, r :: rs =>
    match slog_handlers_register s r.node r.handler r.init r.uninit with
    | .ok s1 => register_all s1 rs
    | .error e => .error e

/-- The operations of the library, with their inputs. -/
inductive Op where
  | register (node : Ptr) (handler init uninit : FnPtr)
  | init_all
  | teardown_all
  | emit (log : slog_t) (args : Ptr)
deriving DecidableEq, Repr

/-- Runs one operation. -/
def Op.run (fuel : Nat) (s : State) : Op → Except Fault State
  | .register node handler init uninit => slog_handlers_register s node handler init uninit
  | .init_all => slog_init fuel s
  | .teardown_all => slog_uninit fuel s
  | .emit log args => __slog fuel s log args

/-- Runs a sequence of operations, stopping at the first fault. -/
def run_ops (fuel : Nat) : State → List Op → Except Fault State
  | s, [] => .ok s
  | s, op :: ops =>
    match op.run fuel s with
    | .ok s1 => run_ops fuel s1 ops
    | .error e => .error e

/-! ## Threads

Several threads call into the library.  Each thread runs its calls one after
the other; a step of a thread is one access to the shared globals, one
operation on the mutex `__slog_lock`, or one turn of a loop.  A schedule is the
sequence of the threads that take the next step.  The flag `SLOG_PTHREAD` tells
whether the library was built with the mutex; without it the lock and unlock
steps do nothing. -/

/-- A call that a thread makes: `__slog(log, args)`, or
`slog_handlers_register(handler, init, uninit)` together with the address that
`malloc` returns inside it. -/
inductive Task where
  | emit (log : slog_t) (args : Ptr)
  | register (node : Ptr) (handler init uninit : FnPtr)
deriving DecidableEq, Repr

/-- Where a thread stands.
* `idle`: between two calls.
* `emit_head`: in `__slog`, after `pthread_mutex_lock`, before `ptr = __slog_handlers`.
* `emit_walk`: in `__slog`, at the test of the `while` loop, with the value of `ptr`.
* `emit_unlock`: in `__slog`, after the loop, before `pthread_mutex_unlock`.
* `reg_lock`: in `slog_handlers_register`, the node is filled in (its `next`
  holds the value read from `__slog_handlers`), before `pthread_mutex_lock`.
* `reg_store`: after `pthread_mutex_lock`, before `__slog_handlers = node`.
* `reg_unlock`: before `pthread_mutex_unlock`.
* `faulted`: the thread made an invalid memory access. -/
inductive Pc where
  | idle
  | emit_head (log : slog_t) (args : Ptr)
  | emit_walk (log : slog_t) (args : Ptr) (ptr : Ptr)
  | emit_unlock
  | reg_lock (node : Ptr)
  | reg_store (node : Ptr)
  | reg_unlock
  | faulted
deriving DecidableEq, Repr

/-- A thread: where it stands, and the calls it still has to make. -/
structure Thread where
  pc : Pc
  todo : List Task
deriving DecidableEq, Repr

/-- State of a program with threads: the node heap, the global
`__slog_handlers`, the owner of the mutex `__slog_lock` if it is locked, the
threads, and the calls made through function pointers so far, each with the
index of the calling thread. -/
structure Conc where
  heap : Heap
  __slog_handlers : Ptr
  __slog_lock : Option Nat
  threads : List Thread
  events : List (Nat × Call)
deriving DecidableEq, Repr

/-- Thread `t` goes on as `th`. -/
def Conc.goto (c : Conc) (t : Nat) (th : Thread) : Conc :=
  { c with threads := c.threads.set t th }

/-- Operation `pthread_mutex_lock(&__slog_lock)` by thread `t`: `none` while the
mutex is held.  Without `SLOG_PTHREAD` the call is not compiled in. -/
def Conc.lock (SLOG_PTHREAD : Bool) (c : Conc) (t : Nat) : Option Conc :=
  if SLOG_PTHREAD then
    match c.__slog_lock with
    | some _ => none
    | none => some { c with __slog_lock := some t }
  else some c

/-- Operation `pthread_mutex_unlock(&__slog_lock)`. -/
def Conc.unlock (SLOG_PTHREAD : Bool) (c : Conc) : Conc :=
  if SLOG_PTHREAD then { c with __slog_lock := none } else c

/-- One step of thread `t`.  A thread that waits for the mutex, has finished,
has faulted or does not exist leaves the state as it is. -/
def Conc.step (SLOG_PTHREAD : Bool) (c : Conc) (t : Nat) : Conc :=
  match c.threads[t]? with
  | none => c
  | some th =>
    match th.pc with
    | .idle =>
      match th.todo with
      | [] => c
      | .emit log args :: rest =>
        match c.lock SLOG_PTHREAD t with
        | none => c
        | some c1 => c1.goto t ⟨.emit_head log args, rest⟩
      | .register node handler init uninit :: rest =>
        if node = NULL then c.goto t ⟨.faulted, rest⟩
        else
          { c with heap := c.heap.write node ⟨handler, init, uninit, c.__slog_handlers⟩ }.goto t
            ⟨.reg_lock node, rest⟩
    | .emit_head log args => c.goto t ⟨.emit_walk log args c.__slog_handlers, th.todo⟩
    | .emit_walk log args ptr =>
      if ptr = NULL then c.goto t ⟨.emit_unlock, th.todo⟩
      else
        match c.heap.read ptr with
        | none => c.goto t ⟨.faulted, th.todo⟩
        | some node =>
          match node.handler with
          | some f =>
            { c with events := c.events ++ [(t, Call.handler f log args)] }.goto t
              ⟨.emit_walk log args node.next, th.todo⟩
          | none => c.goto t ⟨.emit_walk log args node.next, th.todo⟩
    | .emit_unlock => (c.unlock SLOG_PTHREAD).goto t ⟨.idle, th.todo⟩
    | .reg_lock node =>
      match c.lock SLOG_PTHREAD t with
      | none => c
      | some c1 => c1.goto t ⟨.reg_store node, th.todo⟩
    | .reg_store node => { c with __slog_handlers := node }.goto t ⟨.reg_unlock, th.todo⟩
    | .reg_unlock => (c.unlock SLOG_PTHREAD).goto t ⟨.idle, th.todo⟩
    | .faulted => c

/-- Runs a schedule: the listed threads take one step each, in order. -/
def Conc.run (SLOG_PTHREAD : Bool) : Conc → List Nat → Conc
  | c, [] => c
  | c, t :: ts => Conc.run SLOG_PTHREAD (c.step SLOG_PTHREAD t) ts

/-- Every thread has returned from its last call. -/
def Conc.finished (c : Conc) : Bool :=
  c.threads.all (fun th => th.pc == Pc.idle && th.todo.isEmpty)

/-- The state in which the threads start: the mutex is free, no thread has
begun its calls `progs`. -/
def Conc.start (heap : Heap) (head : Ptr) (progs : List (List Task)) : Conc :=
  ⟨heap, head, none, progs.map (fun p => ⟨Pc.idle, p⟩), []⟩

/-- The emit of a log and a context, as a call of a thread. -/
def emit_task (e : slog_t × Ptr) : Task :=
  Task.emit e.1 e.2

/-- The calls that one emit, by thread `b.1` with log `b.2.1` and context
`b.2.2`, makes on a registry of nodes `nodes`, in order. -/
def emit_block (nodes : List __slog_handler_node) (b : Nat × slog_t × Ptr) : List (Nat × Call) :=
  (nodes.filterMap (delivery b.2.1 b.2.2)).map (fun call => (b.1, call))

/-- The event is a call of the handler `f`. -/
def calls_handler (f : Nat) (e : Nat × Call) : Bool :=
  match e.2 with
  | Call.handler g _ _ => g == f
  | _ => false

/-- The emits of thread `t` among `blocks`, in order. -/
def emits_of (blocks : List (Nat × slog_t × Ptr)) (t : Nat) : List (slog_t × Ptr) :=
  (blocks.filter (fun b => b.1 == t)).map (fun b => b.2)

/-- What holds of thread `t`, standing as `th`, while the threads only emit on
a registry of nodes `nodes`: `blocks` are the emits whose walk is over, `cur`
is the emit under way in `t`, if any.  Only the owner of the mutex is inside
`__slog`, and the events are the calls of `blocks` followed by the calls made
so far by the emit under way. -/
def EmitThread (heap : Heap) (nodes : List __slog_handler_node) (c : Conc)
    (blocks : List (Nat × slog_t × Ptr)) (t : Nat) (th : Thread) (cur : List (slog_t × Ptr)) :
    Prop :=
  match th.pc with
  | .idle => cur = [] ∧ c.__slog_lock ≠ some t
  | .emit_head log args =>
    cur = [(log, args)] ∧ c.__slog_lock = some t ∧ c.events = blocks.flatMap (emit_block nodes)
  | .emit_walk log args ptr =>
    cur = [(log, args)] ∧ c.__slog_lock = some t ∧
      ∃ pre post, nodes = pre ++ post ∧ Chain heap ptr post ∧
        c.events = blocks.flatMap (emit_block nodes)
          ++ (pre.filterMap (delivery log args)).map (fun call => (t, call))
  | .emit_unlock =>
    cur = [] ∧ c.__slog_lock = some t ∧ c.events = blocks.flatMap (emit_block nodes)
  | _ => False

/-- Invariant of a program whose threads only emit, thread `t` making the
emits `progs[t]`, on the registry of nodes `nodes` at `head` in `heap`. -/
structure EmitInv (heap : Heap) (head : Ptr) (nodes : List __slog_handler_node)
    (progs : List (List (slog_t × Ptr))) (c : Conc) (blocks : List (Nat × slog_t × Ptr)) :
    Prop where
  heap_eq : c.heap = heap
  head_eq : c.__slog_handlers = head
  length_eq : c.threads.length = progs.length
  tids : ∀ b ∈ blocks, b.1 < progs.length
  holder : ∀ t, c.__slog_lock = some t → t < c.threads.length
  lock_free : c.__slog_lock = none → c.events = blocks.flatMap (emit_block nodes)
  threads : ∀ t th, c.threads[t]? = some th →
    ∃ cur rest, progs[t]? = some (emits_of blocks t ++ cur ++ rest)
      ∧ th.todo = rest.map emit_task ∧ EmitThread heap nodes c blocks t th cur

/-- The events of thread `t` among `events`, in order. -/
def events_of (events : List (Nat × Call)) (t : Nat) : List (Nat × Call) :=
  events.filter (fun e => e.1 == t)

/-- What holds of thread `t`, standing as `th`, in either build, while the
threads only emit on a registry of nodes `nodes`: `done` are the emits of `t`
whose walk is over, `cur` is the emit of `t` under way, if any, and `evs`, the
events of `t`, are the calls of the emits `done` followed by the calls made so
far by the emit under way. -/
def ProjThread (heap : Heap) (nodes : List __slog_handler_node) (t : Nat) (th : Thread)
    (done cur : List (slog_t × Ptr)) (evs : List (Nat × Call)) : Prop :=
  match th.pc with
  | .idle => cur = [] ∧ evs = (done.map (fun e => (t, e))).flatMap (emit_block nodes)
  | .emit_head log args =>
    cur = [(log, args)] ∧ evs = (done.map (fun e => (t, e))).flatMap (emit_block nodes)
  | .emit_walk log args ptr =>
    cur = [(log, args)] ∧
      ∃ pre post, nodes = pre ++ post ∧ Chain heap ptr post ∧
        evs = (done.map (fun e => (t, e))).flatMap (emit_block nodes)
          ++ emit_block pre (t, log, args)
  | .emit_unlock => cur = [] ∧ evs = (done.map (fun e => (t, e))).flatMap (emit_block nodes)
  | _ => False

/-- Invariant, in either build, of a program whose threads only emit, thread
`t` making the emits `progs[t]`, on the registry of nodes `nodes` at `head` in
`heap`. -/
structure EmitProj (heap : Heap) (head : Ptr) (nodes : List __slog_handler_node)
    (progs : List (List (slog_t × Ptr))) (c : Conc) : Prop where
  heap_eq : c.heap = heap
  head_eq : c.__slog_handlers = head
  length_eq : c.threads.length = progs.length
  tids : ∀ e ∈ c.events, e.1 < progs.length
  threads : ∀ t th, c.threads[t]? = some th →
    ∃ done cur rest, progs[t]? = some (done ++ cur ++ rest)
      ∧ th.todo = rest.map emit_task ∧ ProjThread heap nodes t th done cur (events_of c.events t)

/-- A thread that only emits and, if it is inside the loop of `__slog`, stands
on a list that ends. -/
def Finishable (heap : Heap) (th : Thread) : Prop :=
  (∃ rest : List (slog_t × Ptr), th.todo = rest.map emit_task) ∧
    match th.pc with
    | .idle => True
    | .emit_head _ _ => True
    | .emit_walk _ _ ptr => ∃ post, Chain heap ptr post
    | .emit_unlock => True
    | _ => False

/-! ## Heap lemmas -/

theorem read_filter_ne (h : Heap) (p q : Ptr) (hne : q ≠ p) :
    Heap.read (h.filter (fun c => c.1 != p)) q = Heap.read h q := by
  induction h with
  | nil => rfl
  | cons c cs ih =>
    obtain ⟨k, v⟩ := c
    by_cases hk : k = p
    · subst hk
      have hq : (q == k) = false := by simpa using hne
      simp only [Heap.read] at ih ⊢
      simp [List.filter_cons, List.lookup_cons, hq, ih]
    · have hk2 : (k != p) = true := by simpa using hk
      simp only [Heap.read] at ih ⊢
      simp [List.filter_cons, hk2, List.lookup_cons, ih]

theorem read_filter_eq (h : Heap) (p : Ptr) :
    Heap.read (h.filter (fun c => c.1 != p)) p = none := by
  induction h with
  | nil => rfl
  | cons c cs ih =>
    obtain ⟨k, v⟩ := c
    by_cases hk : k = p
    · subst hk
      simp only [Heap.read] at ih ⊢
      simp [List.filter_cons, ih]
    · have hk2 : (k != p) = true := by simpa using hk
      have hq : (p == k) = false := by simpa using (Ne.symm hk)
      simp only [Heap.read] at ih ⊢
      simp [List.filter_cons, hk2, List.lookup_cons, hq, ih]

theorem read_free_ne (h : Heap) (p q : Ptr) (hne : q ≠ p) :
    (free h p).read q = h.read q :=
  read_filter_ne h p q hne

theorem read_free_eq (h : Heap) (p : Ptr) : (free h p).read p = none :=
  read_filter_eq h p

theorem read_write_eq (h : Heap) (p : Ptr) (n : __slog_handler_node) :
    (h.write p n).read p = some n := by
  simp [Heap.write, Heap.read, List.lookup_cons]

theorem read_write_ne (h : Heap) (p q : Ptr) (n : __slog_handler_node) (hne : q ≠ p) :
    (h.write p n).read q = h.read q := by
  have hq : (q == p) = false := by simpa using hne
  have := read_filter_ne h p q hne
  simp only [Heap.read] at this
  simp [Heap.write, Heap.read, List.lookup_cons, hq, this]

/-! ## Chain lemmas -/

theorem Chain.unique {heap : Heap} :
    ∀ {l1 l2 : List __slog_handler_node} {p : Ptr}, Chain heap p l1 → Chain heap p l2 → l1 = l2
  | [], [], _, _, _ => rfl
  | [], _ :: _, _, h1, h2 => absurd h1 h2.1
  | _ :: _, [], _, h1, h2 => absurd h2 h1.1
  | n :: ns, m :: ms, _, h1, h2 => by
    have hnm : n = m := Option.some.inj (h1.2.1.symm.trans h2.2.1)
    subst hnm
    rw [Chain.unique h1.2.2 h2.2.2]

/-- A chain does not come back to the address of an earlier node. -/
theorem Chain.ne_of_shorter {heap : Heap} {p q : Ptr} {n : __slog_handler_node}
    {ns ms : List __slog_handler_node} (hq : Chain heap q (n :: ns)) (hp : Chain heap p ms)
    (hlen : ms.length ≤ ns.length) : p ≠ q := by
  intro hpq
  subst hpq
  have := Chain.unique hp hq
  subst this
  simp at hlen

/-- Storing at an address that was not live leaves every chain in place. -/
theorem Chain.write_fresh {heap : Heap} {q : Ptr} (m : __slog_handler_node)
    (hq : heap.read q = none) :
    ∀ {nodes : List __slog_handler_node} {p : Ptr}, Chain heap p nodes →
      Chain (heap.write q m) p nodes
  | [], _, h => h
  | n :: ns, p, h => by
    have hpq : p ≠ q := by
      intro hpq
      subst hpq
      have h2 : heap.read p = some n := h.2.1
      rw [hq] at h2
      exact Option.noConfusion h2
    exact ⟨h.1, by rw [read_write_ne _ _ _ _ hpq]; exact h.2.1, Chain.write_fresh m hq h.2.2⟩

/-- Freeing the first node of a chain leaves the rest of the chain in place. -/
theorem Chain.free_head {heap : Heap} {q : Ptr} {n : __slog_handler_node}
    {ns : List __slog_handler_node} (hq : Chain heap q (n :: ns)) :
    ∀ {ms : List __slog_handler_node} {p : Ptr}, Chain heap p ms → ms.length ≤ ns.length →
      Chain (free heap q) p ms
  | [], _, h, _ => h
  | m :: ms, p, h, hlen => by
    have hpq : p ≠ q := Chain.ne_of_shorter hq h (by simp at hlen; simp; omega)
    refine ⟨h.1, ?_, Chain.free_head hq h.2.2 (by simp at hlen; omega)⟩
    rw [read_free_ne _ _ _ hpq]
    exact h.2.1

/-! ## The loops on a chain -/

theorem __slog_loop_chain (log : slog_t) (args : Ptr) (heap : Heap) :
    ∀ (nodes : List __slog_handler_node) (fuel : Nat) (p : Ptr) (trace : List Call),
      Chain heap p nodes → nodes.length < fuel →
      __slog_loop log args fuel heap p trace
        = .ok (trace ++ nodes.filterMap (delivery log args))
  | _, 0, _, _, _, hf => absurd hf (Nat.not_lt_zero _)
  | [], fuel + 1, p, trace, h, _ => by
    have hp : p = NULL := h
    simp [__slog_loop, hp]
  | n :: ns, fuel + 1, p, trace, h, hf => by
    have hp : p ≠ NULL := h.1
    have ih := __slog_loop_chain log args heap ns fuel n.next
    have hlen : ns.length < fuel := by simp at hf; omega
    cases hh : n.handler with
    | none =>
      simp [__slog_loop, hp, h.2.1, hh, ih _ h.2.2 hlen, List.filterMap_cons, delivery]
    | some f =>
      simp [__slog_loop, hp, h.2.1, hh, ih _ h.2.2 hlen, List.filterMap_cons, delivery]

theorem slog_init_loop_chain (heap : Heap) :
    ∀ (nodes : List __slog_handler_node) (fuel : Nat) (p : Ptr) (trace : List Call),
      Chain heap p nodes → nodes.length < fuel →
      slog_init_loop fuel heap p trace = .ok (trace ++ nodes.filterMap init_call)
  | _, 0, _, _, _, hf => absurd hf (Nat.not_lt_zero _)
  | [], fuel + 1, p, trace, h, _ => by
    have hp : p = NULL := h
    simp [slog_init_loop, hp]
  | n :: ns, fuel + 1, p, trace, h, hf => by
    have hp : p ≠ NULL := h.1
    have ih := slog_init_loop_chain heap ns fuel n.next
    have hlen : ns.length < fuel := by simp at hf; omega
    cases hh : n.init with
    | none =>
      simp [slog_init_loop, hp, h.2.1, hh, ih _ h.2.2 hlen, List.filterMap_cons, init_call]
    | some f =>
      simp [slog_init_loop, hp, h.2.1, hh, ih _ h.2.2 hlen, List.filterMap_cons, init_call]

theorem slog_uninit_loop_chain :
    ∀ (nodes : List __slog_handler_node) (fuel : Nat) (heap : Heap) (p : Ptr),
      Chain heap p nodes → nodes.length < fuel →
      ∃ heap1, slog_uninit_loop fuel heap p = .ok heap1
        ∧ (∀ q, heap.read q = none → heap1.read q = none)
        ∧ (nodes ≠ [] → heap1.read p = none)
  | _, 0, _, _, _, hf => absurd hf (Nat.not_lt_zero _)
  | [], fuel + 1, heap, p, h, _ => by
    have hp : p = NULL := h
    exact ⟨heap, by simp [slog_uninit_loop, hp], fun _ hq => hq, fun hne => absurd rfl hne⟩
  | n :: ns, fuel + 1, heap, p, h, hf => by
    have hp : p ≠ NULL := h.1
    have hlen : ns.length < fuel := by simp at hf; omega
    have hrest : Chain (free heap p) n.next ns := Chain.free_head h h.2.2 (Nat.le_refl _)
    obtain ⟨heap1, hrun, hkeep, _⟩ := slog_uninit_loop_chain ns fuel (free heap p) n.next hrest hlen
    refine ⟨heap1, by simp [slog_uninit_loop, hp, h.2.1, hrun], ?_, ?_⟩
    · intro q hq
      apply hkeep
      by_cases hqp : q = p
      · rw [hqp]; exact read_free_eq heap p
      · rw [read_free_ne heap p q hqp]; exact hq
    · intro _
      exact hkeep p (read_free_eq heap p)

/-! ## Registration on a chain -/

theorem slog_handlers_register_ok (s : State) (node : Ptr) (handler init uninit : FnPtr)
    (hn : node ≠ NULL) :
    slog_handlers_register s node handler init uninit
      = .ok ⟨s.heap.write node ⟨handler, init, uninit, s.__slog_handlers⟩, node, s.trace⟩ := by
  simp [slog_handlers_register, hn]

theorem slog_handlers_register_chain {s : State} {nodes : List __slog_handler_node}
    (node : Ptr) (handler init uninit : FnPtr)
    (hc : Chain s.heap s.__slog_handlers nodes) (hn : node ≠ NULL)
    (hfresh : s.heap.read node = none) :
    Chain (s.heap.write node ⟨handler, init, uninit, s.__slog_handlers⟩) node
      (⟨handler, init, uninit, s.__slog_handlers⟩ :: nodes) :=
  ⟨hn, read_write_eq _ _ _, Chain.write_fresh _ hfresh hc⟩

theorem register_all_chain :
    ∀ (rs : List Registration) (s : State) (nodes : List __slog_handler_node),
      Chain s.heap s.__slog_handlers nodes →
      (rs.map Registration.node).Nodup →
      (∀ r ∈ rs, r.node ≠ NULL ∧ s.heap.read r.node = none) →
      ∃ s1 nodes1, register_all s rs = .ok s1 ∧ s1.trace = s.trace
        ∧ Chain s1.heap s1.__slog_handlers nodes1
        ∧ nodes1.map entry = (rs.reverse.map Registration.entry) ++ nodes.map entry
  | [], s, nodes, hc, _, _ => ⟨s, nodes, rfl, rfl, hc, by simp⟩
  | r :: rs, s, nodes, hc, hnd, hfresh => by
    have hr := hfresh r (List.mem_cons_self _ _)
    have hnd2 : r.node ∉ rs.map Registration.node ∧ (rs.map Registration.node).Nodup := by
      simpa using hnd
    have hc1 := slog_handlers_register_chain r.node r.handler r.init r.uninit hc hr.1 hr.2
    have hfresh1 : ∀ r1 ∈ rs, r1.node ≠ NULL ∧
        Heap.read (s.heap.write r.node ⟨r.handler, r.init, r.uninit, s.__slog_handlers⟩) r1.node
          = none := by
      intro r1 hr1
      have h1 := hfresh r1 (List.mem_cons_of_mem _ hr1)
      have hne : r1.node ≠ r.node := by
        intro heq
        exact hnd2.1 (heq ▸ List.mem_map_of_mem Registration.node hr1)
      exact ⟨h1.1, by rw [read_write_ne _ _ _ _ hne]; exact h1.2⟩
    obtain ⟨s1, nodes1, hrun, htr, hch, hent⟩ :=
      register_all_chain rs
        ⟨s.heap.write r.node ⟨r.handler, r.init, r.uninit, s.__slog_handlers⟩, r.node, s.trace⟩
        _ hc1 hnd2.2 hfresh1
    refine ⟨s1, nodes1, ?_, htr, hch, ?_⟩
    · simp [register_all, slog_handlers_register_ok s r.node r.handler r.init r.uninit hr.1, hrun]
    · rw [hent]
      simp [entry, Registration.entry]

/-! ## Calls made, in terms of the stored callbacks -/

theorem delivery_eq_entry (log : slog_t) (args : Ptr) (nodes : List __slog_handler_node) :
    nodes.filterMap (delivery log args)
      = (nodes.map entry).filterMap (fun e => e.1.map (fun f => Call.handler f log args)) := by
  rw [List.filterMap_map]
  rfl

theorem filterMap_some_map {α β : Type} (g : α → β) (l : List α) :
    (l.map some).filterMap (fun o => o.map g) = l.map g := by
  induction l with
  | nil => rfl
  | cons a l ih => simp [List.filterMap_cons, ih]

theorem __slog_chain {s : State} {nodes : List __slog_handler_node} (fuel : Nat) (log : slog_t)
    (args : Ptr) (hc : Chain s.heap s.__slog_handlers nodes) (hf : nodes.length < fuel) :
    __slog fuel s log args
      = .ok { s with trace := s.trace ++ nodes.filterMap (delivery log args) } := by
  simp [__slog, __slog_loop_chain log args s.heap nodes fuel _ s.trace hc hf]

theorem slog_init_chain {s : State} {nodes : List __slog_handler_node} (fuel : Nat)
    (hc : Chain s.heap s.__slog_handlers nodes) (hf : nodes.length < fuel) :
    slog_init fuel s = .ok { s with trace := s.trace ++ nodes.filterMap init_call } := by
  simp [slog_init, slog_init_loop_chain s.heap nodes fuel _ s.trace hc hf]

/-! ## Calls made by the operations, on any heap -/

theorem __slog_loop_calls (log : slog_t) (args : Ptr) (heap : Heap) :
    ∀ (fuel : Nat) (p : Ptr) (trace trace1 : List Call),
      __slog_loop log args fuel heap p trace = .ok trace1 →
      ∃ calls, trace1 = trace ++ calls ∧ ∀ c ∈ calls, ∃ f, c = Call.handler f log args
  | 0, _, _, _, h => by simp [__slog_loop] at h
  | fuel + 1, p, trace, trace1, h => by
    unfold __slog_loop at h
    split at h
    · injection h with h
      exact ⟨[], by simp [h], by simp⟩
    · split at h
      · simp at h
      · split at h
        · rename_i f _
          obtain ⟨calls, hc, hall⟩ := __slog_loop_calls log args heap fuel _ _ _ h
          refine ⟨Call.handler f log args :: calls, by simp [hc], ?_⟩
          intro c hcm
          rcases List.mem_cons.mp hcm with h1 | h1
          · exact ⟨f, h1⟩
          · exact hall c h1
        · exact __slog_loop_calls log args heap fuel _ _ _ h

theorem slog_init_loop_calls (heap : Heap) :
    ∀ (fuel : Nat) (p : Ptr) (trace trace1 : List Call),
      slog_init_loop fuel heap p trace = .ok trace1 →
      ∃ calls, trace1 = trace ++ calls ∧ ∀ c ∈ calls, ∃ f, c = Call.init f
  | 0, _, _, _, h => by simp [slog_init_loop] at h
  | fuel + 1, p, trace, trace1, h => by
    unfold slog_init_loop at h
    split at h
    · injection h with h
      exact ⟨[], by simp [h], by simp⟩
    · split at h
      · simp at h
      · split at h
        · rename_i f _
          obtain ⟨calls, hc, hall⟩ := slog_init_loop_calls heap fuel _ _ _ h
          refine ⟨Call.init f :: calls, by simp [hc], ?_⟩
          intro c hcm
          rcases List.mem_cons.mp hcm with h1 | h1
          · exact ⟨f, h1⟩
          · exact hall c h1
        · exact slog_init_loop_calls heap fuel _ _ _ h

theorem slog_uninit_trace (fuel : Nat) (s s1 : State) (h : slog_uninit fuel s = .ok s1) :
    s1.trace = s.trace ∧ s1.__slog_handlers = s.__slog_handlers := by
  unfold slog_uninit at h
  split at h
  · injection h with h
    subst h
    exact ⟨rfl, rfl⟩
  · simp at h

theorem Op.run_calls (fuel : Nat) (s s1 : State) (op : Op) (h : op.run fuel s = .ok s1) :
    ∃ calls, s1.trace = s.trace ++ calls ∧ ∀ f, Call.uninit f ∉ calls := by
  cases op with
  | register node handler init uninit =>
    simp only [Op.run, slog_handlers_register] at h
    split at h
    · simp at h
    · injection h with h
      subst h
      exact ⟨[], by simp, by simp⟩
  | init_all =>
    simp only [Op.run, slog_init] at h
    split at h
    · rename_i trace1 hloop
      injection h with h
      subst h
      obtain ⟨calls, hc, hall⟩ := slog_init_loop_calls _ _ _ _ _ hloop
      refine ⟨calls, hc, ?_⟩
      intro f hf
      obtain ⟨g, hg⟩ := hall _ hf
      exact Call.noConfusion hg
    · simp at h
  | teardown_all =>
    exact ⟨[], by simp [(slog_uninit_trace fuel s s1 h).1], by simp⟩
  | emit log args =>
    simp only [Op.run, __slog] at h
    split at h
    · rename_i trace1 hloop
      injection h with h
      subst h
      obtain ⟨calls, hc, hall⟩ := __slog_loop_calls _ _ _ _ _ _ _ hloop
      refine ⟨calls, hc, ?_⟩
      intro f hf
      obtain ⟨g, hg⟩ := hall _ hf
      exact Call.noConfusion hg
    · simp at h

theorem run_ops_calls (fuel : Nat) :
    ∀ (ops : List Op) (s s1 : State), run_ops fuel s ops = .ok s1 →
      ∃ calls, s1.trace = s.trace ++ calls ∧ ∀ f, Call.uninit f ∉ calls
  | [], s, s1, h => by
    injection h with h
    subst h
    exact ⟨[], by simp, by simp⟩
  | op :: ops, s, s1, h => by
    simp only [run_ops] at h
    split at h
    · rename_i s2 hop
      obtain ⟨c1, h1, hn1⟩ := Op.run_calls fuel s s2 op hop
      obtain ⟨c2, h2, hn2⟩ := run_ops_calls fuel ops s2 s1 h
      refine ⟨c1 ++ c2, by rw [h2, h1, List.append_assoc], ?_⟩
      intro f hf
      rcases List.mem_append.mp hf with h3 | h3
      · exact hn1 f h3
      · exact hn2 f h3
    · simp at h

theorem count_init_call (f : Nat) (nodes : List __slog_handler_node) :
    (nodes.filterMap init_call).count (Call.init f)
      = nodes.countP (fun n => n.init == some f) := by
  induction nodes with
  | nil => rfl
  | cons n ns ih =>
    cases hi : n.init with
    | none => simp [List.filterMap_cons, init_call, hi, ih, List.countP_cons]
    | some g =>
      by_cases hg : g = f
      · simp [List.filterMap_cons, init_call, hi, ih, List.countP_cons, List.count_cons, hg]
      · simp [List.filterMap_cons, init_call, hi, ih, List.countP_cons, List.count_cons, hg]

/-! ## The message buffer -/

theorem slog_level_string_unknown_iff (v : Int) :
    slog_level_string v = "UNKNOWN" ↔ ¬ (0 ≤ v ∧ v ≤ 5) := by
  constructor
  · intro h hr
    obtain ⟨h0, h5⟩ := hr
    interval_cases v <;> revert h <;> decide
  · intro h
    have h0 : ¬ v = 0 := by omega
    have h1 : ¬ v = 1 := by omega
    have h2 : ¬ v = 2 := by omega
    have h3 : ¬ v = 3 := by omega
    have h4 : ¬ v = 4 := by omega
    have h5 : ¬ v = 5 := by omega
    simp [slog_level_string, SLOG_TRACE, SLOG_DEBUG, SLOG_INFO, SLOG_WARN, SLOG_ERROR,
      SLOG_FATAL, h0, h1, h2, h3, h4, h5]

theorem slog_level_string_injOn (x y : Int) (hx : 0 ≤ x ∧ x ≤ 5) (hy : 0 ≤ y ∧ y ≤ 5)
    (h : slog_level_string x = slog_level_string y) : x = y := by
  obtain ⟨ha0, ha5⟩ := hx
  obtain ⟨hb0, hb5⟩ := hy
  interval_cases x <;> interval_cases y <;> first | rfl | (revert h; decide)

/-! ## Threads that only emit -/

theorem emits_of_append_other (blocks : List (Nat × slog_t × Ptr)) (t u : Nat)
    (e : slog_t × Ptr) (h : t ≠ u) : emits_of (blocks ++ [(t, e)]) u = emits_of blocks u := by
  have : (t == u) = false := by simpa using h
  simp [emits_of, List.filter_append, List.filter_cons, this]

theorem emits_of_append_self (blocks : List (Nat × slog_t × Ptr)) (t : Nat)
    (e : slog_t × Ptr) : emits_of (blocks ++ [(t, e)]) t = emits_of blocks t ++ [e] := by
  simp [emits_of, List.filter_append, List.filter_cons]

/-- A thread that does not own the mutex is between two calls. -/
theorem emitThread_not_owner {heap : Heap} {nodes : List __slog_handler_node} {c : Conc}
    {blocks : List (Nat × slog_t × Ptr)} {t : Nat} {th : Thread} {cur : List (slog_t × Ptr)}
    (h : EmitThread heap nodes c blocks t th cur) (hl : c.__slog_lock ≠ some t) :
    th.pc = Pc.idle ∧ cur = [] := by
  unfold EmitThread at h
  cases hpc : th.pc <;> rw [hpc] at h <;> simp only at h
  · exact ⟨rfl, h.1⟩
  · exact absurd h.2.1 hl
  · exact absurd h.2.1 hl
  · exact absurd h.2.1 hl

/-- The step of thread `t`, owner of the mutex or taking it, keeps the
invariant when it keeps it for `t` itself. -/
theorem EmitInv.update {heap : Heap} {head : Ptr} {nodes : List __slog_handler_node}
    {progs : List (List (slog_t × Ptr))} {c c1 : Conc} {blocks blocks1 : List (Nat × slog_t × Ptr)}
    (h : EmitInv heap head nodes progs c blocks) (t : Nat) (th th1 : Thread)
    (hget : c.threads[t]? = some th)
    (hold : c.__slog_lock = none ∨ c.__slog_lock = some t)
    (hheap : c1.heap = c.heap) (hhead : c1.__slog_handlers = c.__slog_handlers)
    (hthreads : c1.threads = c.threads.set t th1)
    (hnew : c1.__slog_lock = none ∨ c1.__slog_lock = some t)
    (hblocks : blocks1 = blocks ∨ ∃ e, blocks1 = blocks ++ [(t, e)])
    (hfree : c1.__slog_lock = none → c1.events = blocks1.flatMap (emit_block nodes))
    (hthread : ∃ cur rest, progs[t]? = some (emits_of blocks1 t ++ cur ++ rest)
      ∧ th1.todo = rest.map emit_task ∧ EmitThread heap nodes c1 blocks1 t th1 cur) :
    EmitInv heap head nodes progs c1 blocks1 := by
  have ht : t < c.threads.length := by
    rcases Nat.lt_or_ge t c.threads.length with h1 | h1
    · exact h1
    · rw [List.getElem?_eq_none h1] at hget
      exact Option.noConfusion hget
  refine ⟨hheap.trans h.heap_eq, hhead.trans h.head_eq, ?_, ?_, ?_, hfree, ?_⟩
  · rw [hthreads, List.length_set]; exact h.length_eq
  · intro b hb
    rcases hblocks with hb1 | ⟨e, hb1⟩
    · rw [hb1] at hb; exact h.tids b hb
    · rw [hb1] at hb
      rcases List.mem_append.mp hb with h2 | h2
      · exact h.tids b h2
      · have : b = (t, e) := by simpa using h2
        rw [this, ← h.length_eq]; exact ht
  · intro u hu
    rcases hnew with h2 | h2
    · rw [h2] at hu; exact Option.noConfusion hu
    · rw [h2] at hu
      injection hu with hu
      rw [hthreads, List.length_set, ← hu]; exact ht
  · intro u thu hu
    by_cases hut : u = t
    · subst hut
      rw [hthreads, List.getElem?_set_self ht] at hu
      injection hu with hu
      subst hu
      exact hthread
    · rw [hthreads, List.getElem?_set_ne (Ne.symm hut)] at hu
      obtain ⟨cur, rest, hp, htodo, hth⟩ := h.threads u thu hu
      have hlu : c.__slog_lock ≠ some u := by
        rcases hold with h2 | h2
        · rw [h2]; exact fun h3 => Option.noConfusion h3
        · rw [h2]; exact fun h3 => hut (Option.some.inj h3).symm
      obtain ⟨hidle, hcur⟩ := emitThread_not_owner hth hlu
      have hlu1 : c1.__slog_lock ≠ some u := by
        rcases hnew with h2 | h2
        · rw [h2]; exact fun h3 => Option.noConfusion h3
        · rw [h2]; exact fun h3 => hut (Option.some.inj h3).symm
      refine ⟨cur, rest, ?_, htodo, ?_⟩
      · rcases hblocks with hb1 | ⟨e, hb1⟩
        · rw [hb1]; exact hp
        · rw [hb1, emits_of_append_other _ _ _ _ (Ne.symm hut)]; exact hp
      · unfold EmitThread
        rw [hidle]
        exact ⟨hcur, hlu1⟩

theorem EmitInv.step_preserved {heap : Heap} {head : Ptr} {nodes : List __slog_handler_node}
    {progs : List (List (slog_t × Ptr))} {c : Conc} {blocks : List (Nat × slog_t × Ptr)}
    (h : EmitInv heap head nodes progs c blocks) (hc : Chain heap head nodes) (t : Nat) :
    ∃ blocks1, EmitInv heap head nodes progs (c.step true t) blocks1 := by
  unfold Conc.step
  cases hget : c.threads[t]? with
  | none => exact ⟨blocks, h⟩
  | some th =>
    obtain ⟨cur, rest, hp, htodo, hth⟩ := h.threads t th hget
    obtain ⟨pc, todo⟩ := th
    simp only at htodo
    subst htodo
    cases pc with
    | idle =>
      simp only [EmitThread] at hth
      obtain ⟨hcur, hnl⟩ := hth
      subst hcur
      cases rest with
      | nil => exact ⟨blocks, h⟩
      | cons e rest1 =>
        simp only [List.map_cons, emit_task]
        cases hl : c.__slog_lock with
        | some u =>
          simp only [Conc.lock, hl, if_true]
          exact ⟨blocks, h⟩
        | none =>
          simp only [Conc.lock, hl, if_true]
          refine ⟨blocks, h.update t _ _ hget (Or.inl hl) rfl rfl rfl (Or.inr rfl) (Or.inl rfl)
            (fun h1 => Option.noConfusion h1) ⟨[e], rest1, ?_, rfl, ?_⟩⟩
          · simpa using hp
          · exact (show _ ∧ _ ∧ _ from ⟨rfl, rfl, h.lock_free hl⟩)
    | emit_head log args =>
      obtain ⟨hcur, hl, hev⟩ := (show _ ∧ _ ∧ _ from hth)
      refine ⟨blocks, h.update t _ _ hget (Or.inr hl) rfl rfl rfl (Or.inr hl) (Or.inl rfl)
        (fun h1 => absurd (hl.symm.trans h1) (by simp)) ⟨cur, rest, hp, rfl, ?_⟩⟩
      refine (show _ ∧ _ ∧ _ from ⟨hcur, hl, [], nodes, rfl, ?_, ?_⟩)
      · rw [h.head_eq]; exact hc
      · simpa using hev
    | emit_walk log args ptr =>
      obtain ⟨hcur, hl, pre, post, hnodes, hchain, hev⟩ :=
        (show _ ∧ _ ∧ ∃ pre post, _ ∧ _ ∧ _ from hth)
      have hnone : c.__slog_lock = none → False := fun h1 => absurd (hl.symm.trans h1) (by simp)
      cases post with
      | nil =>
        have hptr : ptr = NULL := hchain
        simp only [hptr, if_true]
        have hpre : pre = nodes := by simpa using hnodes.symm
        refine ⟨blocks ++ [(t, log, args)],
          h.update t _ _ hget (Or.inr hl) rfl rfl rfl (Or.inr hl) (Or.inr ⟨(log, args), rfl⟩)
            (fun h1 => (hnone h1).elim) ⟨[], rest, ?_, rfl, ?_⟩⟩
        · rw [emits_of_append_self, hp, hcur]; simp
        · refine (show _ ∧ _ ∧ _ from ⟨rfl, hl, ?_⟩)
          show c.events = _
          rw [hev, hpre]
          simp [emit_block]
      | cons n post1 =>
        have hptr : ptr ≠ NULL := hchain.1
        have hread : c.heap.read ptr = some n := by rw [h.heap_eq]; exact hchain.2.1
        simp only [hptr, if_false, hread]
        cases hh : n.handler with
        | none =>
          refine ⟨blocks, h.update t _ _ hget (Or.inr hl) rfl rfl rfl (Or.inr hl) (Or.inl rfl)
            (fun h1 => (hnone h1).elim) ⟨cur, rest, hp, rfl, ?_⟩⟩
          refine (show _ ∧ _ ∧ _ from ⟨hcur, hl, pre ++ [n], post1, ?_, hchain.2.2, ?_⟩)
          · rw [hnodes]; simp
          · show c.events = _
            rw [hev]
            simp [List.filterMap_append, delivery, hh]
        | some f =>
          refine ⟨blocks, h.update t _ _ hget (Or.inr hl) rfl rfl rfl (Or.inr hl) (Or.inl rfl)
            (fun h1 => (hnone h1).elim) ⟨cur, rest, hp, rfl, ?_⟩⟩
          refine (show _ ∧ _ ∧ _ from ⟨hcur, hl, pre ++ [n], post1, ?_, hchain.2.2, ?_⟩)
          · rw [hnodes]; simp
          · show c.events ++ [(t, Call.handler f log args)] = _
            rw [hev]
            simp [List.filterMap_append, delivery, hh]
    | emit_unlock =>
      obtain ⟨hcur, hl, hev⟩ := (show _ ∧ _ ∧ _ from hth)
      refine ⟨blocks, h.update t _ _ hget (Or.inr hl) rfl rfl rfl (Or.inl rfl) (Or.inl rfl)
        (fun _ => hev) ⟨cur, rest, hp, rfl, ?_⟩⟩
      exact (show _ ∧ _ from ⟨hcur, fun h1 => Option.noConfusion h1⟩)
    | reg_lock node => exact absurd hth (by simp [EmitThread])
    | reg_store node => exact absurd hth (by simp [EmitThread])
    | reg_unlock => exact absurd hth (by simp [EmitThread])
    | faulted => exact absurd hth (by simp [EmitThread])

theorem EmitInv.at_start (heap : Heap) (head : Ptr) (nodes : List __slog_handler_node)
    (progs : List (List (slog_t × Ptr))) :
    EmitInv heap head nodes progs
      (Conc.start heap head (progs.map (fun p => p.map emit_task))) [] := by
  refine ⟨rfl, rfl, by simp [Conc.start], by simp, ?_, fun _ => rfl, ?_⟩
  · intro t ht
    exact Option.noConfusion ht
  · intro t th hth
    simp only [Conc.start, List.getElem?_map, List.map_map] at hth
    cases hp : progs[t]? with
    | none => simp [hp] at hth
    | some p =>
      simp only [hp, Option.map_some', Option.some.injEq, Function.comp] at hth
      subst hth
      exact ⟨[], p, by simp [emits_of], rfl,
        (show _ ∧ _ from ⟨rfl, fun h1 => Option.noConfusion h1⟩)⟩

theorem EmitInv.run_preserved {heap : Heap} {head : Ptr} {nodes : List __slog_handler_node}
    {progs : List (List (slog_t × Ptr))} (hc : Chain heap head nodes) :
    ∀ (sched : List Nat) (c : Conc) (blocks : List (Nat × slog_t × Ptr)),
      EmitInv heap head nodes progs c blocks →
      ∃ blocks1, EmitInv heap head nodes progs (Conc.run true c sched) blocks1
  | [], _, blocks, h => ⟨blocks, h⟩
  | t :: ts, _, _, h => by
    obtain ⟨blocks1, h1⟩ := h.step_preserved hc t
    exact EmitInv.run_preserved hc ts _ blocks1 h1

/-- At any moment the events are the calls of whole emits, one emit after the
other, followed by the calls made so far by the one emit under way. -/
theorem EmitInv.events_blocks {heap : Heap} {head : Ptr} {nodes : List __slog_handler_node}
    {progs : List (List (slog_t × Ptr))} {c : Conc} {blocks : List (Nat × slog_t × Ptr)}
    (h : EmitInv heap head nodes progs c blocks) :
    ∃ (b : Nat × slog_t × Ptr) (pre post : List __slog_handler_node), nodes = pre ++ post
      ∧ c.events = blocks.flatMap (emit_block nodes) ++ emit_block pre b := by
  have hdefault : c.events = blocks.flatMap (emit_block nodes) →
      ∃ (b : Nat × slog_t × Ptr) (pre post : List __slog_handler_node), nodes = pre ++ post
        ∧ c.events = blocks.flatMap (emit_block nodes) ++ emit_block pre b := by
    intro hev
    exact ⟨(0, ⟨0, [], 0, [], [], 0⟩, 0), [], nodes, rfl, by simpa [emit_block] using hev⟩
  cases hl : c.__slog_lock with
  | none => exact hdefault (h.lock_free hl)
  | some t =>
    have ht := h.holder t hl
    obtain ⟨cur, rest, _, _, hth⟩ := h.threads t c.threads[t] (List.getElem?_eq_getElem ht)
    unfold EmitThread at hth
    cases hpc : (c.threads[t]).pc <;> rw [hpc] at hth <;> simp only at hth
    · exact absurd hl hth.2
    · exact hdefault hth.2.2
    · rename_i log args ptr
      obtain ⟨_, _, pre, post, hn, _, hev⟩ := hth
      exact ⟨(t, log, args), pre, post, hn, hev⟩
    · exact hdefault hth.2.2

/-- When every thread has returned, the events are the calls of whole emits
only, and the emits of each thread are the ones of its program. -/
theorem EmitInv.when_finished {heap : Heap} {head : Ptr} {nodes : List __slog_handler_node}
    {progs : List (List (slog_t × Ptr))} {c : Conc} {blocks : List (Nat × slog_t × Ptr)}
    (h : EmitInv heap head nodes progs c blocks) (hfin : c.finished = true) :
    c.events = blocks.flatMap (emit_block nodes)
      ∧ ∀ t, t < progs.length → progs[t]? = some (emits_of blocks t) := by
  have hall : ∀ th ∈ c.threads, th.pc = Pc.idle ∧ th.todo = [] := by
    intro th hth
    have := List.all_eq_true.mp hfin th hth
    simpa using this
  constructor
  · cases hl : c.__slog_lock with
    | none => exact h.lock_free hl
    | some t =>
      have ht := h.holder t hl
      obtain ⟨cur, rest, _, _, hth⟩ := h.threads t c.threads[t] (List.getElem?_eq_getElem ht)
      have hidle := (hall _ (List.getElem_mem ht)).1
      unfold EmitThread at hth
      rw [hidle] at hth
      exact absurd hl hth.2
  · intro t ht
    have ht1 : t < c.threads.length := by rw [h.length_eq]; exact ht
    obtain ⟨cur, rest, hp, htodo, hth⟩ := h.threads t c.threads[t] (List.getElem?_eq_getElem ht1)
    obtain ⟨hidle, hempty⟩ := hall _ (List.getElem_mem ht1)
    unfold EmitThread at hth
    rw [hidle] at hth
    rw [hempty] at htodo
    have hrest : rest = [] := by simpa using htodo.symm
    rw [hp, hth.1, hrest]
    simp

theorem length_eq_sum_emits_of (M : Nat) :
    ∀ blocks : List (Nat × slog_t × Ptr), (∀ b ∈ blocks, b.1 < M) →
      blocks.length = ∑ t in Finset.range M, (emits_of blocks t).length
  | [], _ => by simp [emits_of]
  | b :: bs, h => by
    have ih := length_eq_sum_emits_of M bs (fun x hx => h x (List.mem_cons_of_mem _ hx))
    have hb : b.1 < M := h b (List.mem_cons_self _ _)
    have hstep : ∀ t, (emits_of (b :: bs) t).length
        = (if b.1 = t then 1 else 0) + (emits_of bs t).length := by
      intro t
      by_cases hbt : b.1 = t
      · simp [emits_of, List.filter_cons, hbt, Nat.add_comm]
      · simp [emits_of, List.filter_cons, hbt]
    simp only [hstep, Finset.sum_add_distrib, Finset.sum_ite_eq, Finset.mem_range, hb, if_true]
    rw [List.length_cons, ih, Nat.add_comm]

theorem countP_calls_handler_block (f : Nat) (b : Nat × slog_t × Ptr) :
    ∀ nodes : List __slog_handler_node,
      (emit_block nodes b).countP (calls_handler f) = nodes.countP (fun n => n.handler == some f)
  | [] => rfl
  | n :: ns => by
    have ih := countP_calls_handler_block f b ns
    simp only [emit_block] at ih ⊢
    cases hh : n.handler with
    | none => simp [List.filterMap_cons, delivery, hh, ih, List.countP_cons]
    | some g =>
      by_cases hg : g = f
      · simp [List.filterMap_cons, delivery, hh, ih, List.countP_cons, calls_handler, hg]
      · simp [List.filterMap_cons, delivery, hh, ih, List.countP_cons, calls_handler, hg]

theorem countP_calls_handler_blocks (f : Nat) (nodes : List __slog_handler_node) :
    ∀ blocks : List (Nat × slog_t × Ptr),
      (blocks.flatMap (emit_block nodes)).countP (calls_handler f)
        = blocks.length * nodes.countP (fun n => n.handler == some f)
  | [] => by simp
  | b :: bs => by
    rw [List.flatMap_cons, List.countP_append, countP_calls_handler_block,
      countP_calls_handler_blocks f nodes bs, List.length_cons, Nat.succ_mul, Nat.add_comm]

theorem blocks_length_of_programs {progs : List (List (slog_t × Ptr))}
    {blocks : List (Nat × slog_t × Ptr)} (T : Nat)
    (htids : ∀ b ∈ blocks, b.1 < progs.length)
    (hprogs : ∀ t, t < progs.length → progs[t]? = some (emits_of blocks t))
    (hT : ∀ p ∈ progs, p.length = T) : blocks.length = progs.length * T := by
  rw [length_eq_sum_emits_of progs.length blocks htids]
  have : ∀ t ∈ Finset.range progs.length, (emits_of blocks t).length = T := by
    intro t ht
    have ht1 : t < progs.length := Finset.mem_range.mp ht
    have h1 := hprogs t ht1
    rw [List.getElem?_eq_getElem ht1] at h1
    injection h1 with h1
    rw [← h1]
    exact hT _ (List.getElem_mem ht1)
  rw [Finset.sum_congr rfl this]
  simp

theorem Conc.run_append (b : Bool) :
    ∀ (s1 s2 : List Nat) (c : Conc), Conc.run b c (s1 ++ s2) = Conc.run b (Conc.run b c s1) s2
  | [], _, _ => rfl
  | t :: ts, s2, c => Conc.run_append b ts s2 (c.step b t)

theorem getElem?_lt_length {α : Type} {l : List α} {i : Nat} {a : α} (h : l[i]? = some a) :
    i < l.length := by
  rcases Nat.lt_or_ge i l.length with h1 | h1
  · exact h1
  · rw [List.getElem?_eq_none h1] at h
    exact Option.noConfusion h

/-- The walk of one emit, run without interruption: one step per node and one
for the end of the list. -/
theorem Conc.run_emit_walk (b : Bool) (log : slog_t) (args : Ptr) (t : Nat) (todo : List Task) :
    ∀ (post : List __slog_handler_node) (c : Conc) (ptr : Ptr),
      Chain c.heap ptr post → c.threads[t]? = some ⟨Pc.emit_walk log args ptr, todo⟩ →
      Conc.run b c (List.replicate (post.length + 1) t)
        = { c with
            threads := c.threads.set t ⟨Pc.emit_unlock, todo⟩
            events := c.events ++ emit_block post (t, log, args) }
  | [], c, ptr, hch, hget => by
    have hptr : ptr = NULL := hch
    simp [Conc.run, Conc.step, hget, hptr, Conc.goto, emit_block]
  | n :: post1, c, ptr, hch, hget => by
    have hptr : ptr ≠ NULL := hch.1
    have ht := getElem?_lt_length hget
    rw [List.length_cons, List.replicate_succ, Conc.run]
    cases hh : n.handler with
    | none =>
      have hstep : c.step b t = c.goto t ⟨Pc.emit_walk log args n.next, todo⟩ := by
        simp [Conc.step, hget, hptr, hch.2.1, hh]
      rw [hstep, Conc.run_emit_walk b log args t todo post1
        (c.goto t ⟨Pc.emit_walk log args n.next, todo⟩) n.next hch.2.2
        (by simp [Conc.goto, List.getElem?_set_self ht])]
      simp [Conc.goto, List.set_set, emit_block, List.filterMap_cons, delivery, hh]
    | some f =>
      have hstep : c.step b t
          = { c with events := c.events ++ [(t, Call.handler f log args)] }.goto t
              ⟨Pc.emit_walk log args n.next, todo⟩ := by
        simp [Conc.step, hget, hptr, hch.2.1, hh]
      have key := Conc.run_emit_walk b log args t todo post1
        (Conc.goto (Conc.mk c.heap c.__slog_handlers c.__slog_lock c.threads
          (c.events ++ [(t, Call.handler f log args)])) t
          ⟨Pc.emit_walk log args n.next, todo⟩) n.next hch.2.2
        (by simp [Conc.goto, List.getElem?_set_self ht])
      rw [hstep, key]
      simp [Conc.goto, List.set_set, emit_block, List.filterMap_cons, delivery, hh]

/-- One emit run without interruption, the mutex being free. -/
theorem Conc.run_emit (nodes : List __slog_handler_node) (log : slog_t) (args : Ptr) (t : Nat)
    (rest : List Task) (c : Conc) (hch : Chain c.heap c.__slog_handlers nodes)
    (hl : c.__slog_lock = none)
    (hget : c.threads[t]? = some ⟨Pc.idle, Task.emit log args :: rest⟩) :
    Conc.run true c (List.replicate (nodes.length + 4) t)
      = { c with
          threads := c.threads.set t ⟨Pc.idle, rest⟩
          events := c.events ++ emit_block nodes (t, log, args) } := by
  have ht := getElem?_lt_length hget
  have hsplit : List.replicate (nodes.length + 4) t
      = [t, t] ++ (List.replicate (nodes.length + 1) t ++ [t]) := by
    rw [← List.replicate_succ', List.replicate_succ, List.replicate_succ]
    rfl
  rw [hsplit, Conc.run_append, Conc.run_append]
  have h2 : Conc.run true c [t, t]
      = { c with
          __slog_lock := some t
          threads := c.threads.set t ⟨Pc.emit_walk log args c.__slog_handlers, rest⟩ } := by
    simp [Conc.run, Conc.step, hget, Conc.lock, hl, Conc.goto, List.getElem?_set_self ht,
      List.set_set]
  have key := Conc.run_emit_walk true log args t rest nodes
    (Conc.mk c.heap c.__slog_handlers (some t)
      (c.threads.set t ⟨Pc.emit_walk log args c.__slog_handlers, rest⟩) c.events)
    c.__slog_handlers hch (by simp [List.getElem?_set_self ht])
  rw [h2, key]
  simp [Conc.run, Conc.step, List.getElem?_set_self ht, Conc.unlock, Conc.goto, List.set_set, hl]

theorem set_eq_self_of_getElem? {α : Type} :
    ∀ {l : List α} {i : Nat} {a : α}, l[i]? = some a → l.set i a = l
  | [], _, _, h => by simp at h
  | x :: xs, 0, a, h => by
    have : x = a := by simpa using h
    simp [this]
  | x :: xs, i + 1, a, h => by
    have h1 : xs[i]? = some a := by simpa using h
    simp [set_eq_self_of_getElem? h1]

/-- All the emits of one thread, run without interruption. -/
theorem Conc.run_thread (nodes : List __slog_handler_node) (t : Nat) :
    ∀ (p : List (slog_t × Ptr)) (c : Conc), Chain c.heap c.__slog_handlers nodes →
      c.__slog_lock = none → c.threads[t]? = some ⟨Pc.idle, p.map emit_task⟩ →
      ∃ sched ev, Conc.run true c sched
        = { c with threads := c.threads.set t ⟨Pc.idle, []⟩, events := ev }
  | [], c, _, _, hget => by
    refine ⟨[], c.events, ?_⟩
    have : c.threads.set t ⟨Pc.idle, []⟩ = c.threads := set_eq_self_of_getElem? hget
    simp [Conc.run, this]
  | e :: p1, c, hch, hl, hget => by
    have ht := getElem?_lt_length hget
    have h1 := Conc.run_emit nodes e.1 e.2 t (p1.map emit_task) c hch hl hget
    obtain ⟨sched, ev, h2⟩ := Conc.run_thread nodes t p1
      (Conc.mk c.heap c.__slog_handlers c.__slog_lock (c.threads.set t ⟨Pc.idle, p1.map emit_task⟩)
        (c.events ++ emit_block nodes (t, e.1, e.2)))
      hch hl (by simp [List.getElem?_set_self ht])
    refine ⟨List.replicate (nodes.length + 4) t ++ sched, ev, ?_⟩
    rw [Conc.run_append, h1, h2]
    simp [List.set_set]

/-- The threads can all run to the end: a schedule exists after which every
thread has returned. -/
theorem Conc.exists_finishing (nodes : List __slog_handler_node) :
    ∀ (ps : List (List (slog_t × Ptr))) (done : List Thread) (c : Conc),
      Chain c.heap c.__slog_handlers nodes → c.__slog_lock = none →
      c.threads = done ++ ps.map (fun p => ⟨Pc.idle, p.map emit_task⟩) →
      (∀ th ∈ done, th.pc = Pc.idle ∧ th.todo = []) →
      ∃ sched, (Conc.run true c sched).finished = true
  | [], done, c, _, _, hth, hdone => by
    refine ⟨[], ?_⟩
    simp only [Conc.run, Conc.finished, List.all_eq_true]
    intro th hmem
    rw [hth] at hmem
    have := hdone th (by simpa using hmem)
    simp [this.1, this.2]
  | p :: ps, done, c, hch, hl, hth, hdone => by
    have hget : c.threads[done.length]? = some ⟨Pc.idle, p.map emit_task⟩ := by
      rw [hth, List.getElem?_append_right (Nat.le_refl _)]
      simp
    obtain ⟨s1, ev, h1⟩ := Conc.run_thread nodes done.length p c hch hl hget
    obtain ⟨s2, h2⟩ := Conc.exists_finishing nodes ps (done ++ [⟨Pc.idle, []⟩])
      (Conc.mk c.heap c.__slog_handlers c.__slog_lock (c.threads.set done.length ⟨Pc.idle, []⟩) ev)
      hch hl
      (by
        show c.threads.set done.length ⟨Pc.idle, []⟩ = _
        rw [hth, List.set_append_right _ _ (Nat.le_refl _)]
        simp)
      (by
        intro th hmem
        rcases List.mem_append.mp hmem with h3 | h3
        · exact hdone th h3
        · have : th = ⟨Pc.idle, []⟩ := by simpa using h3
          rw [this]
          exact ⟨rfl, rfl⟩)
    refine ⟨s1 ++ s2, ?_⟩
    rw [Conc.run_append, h1]
    exact h2

theorem threads_eq_map_of_idle :
    ∀ l : List Thread, (∀ th ∈ l, th.pc = Pc.idle ∧ ∃ rest, th.todo = List.map emit_task rest) →
      ∃ ps : List (List (slog_t × Ptr)), l = ps.map (fun p => ⟨Pc.idle, p.map emit_task⟩)
  | [], _ => ⟨[], rfl⟩
  | th :: l, h => by
    obtain ⟨ps, hps⟩ := threads_eq_map_of_idle l (fun x hx => h x (List.mem_cons_of_mem _ hx))
    obtain ⟨hidle, rest, hrest⟩ := h th (List.mem_cons_self _ _)
    refine ⟨rest :: ps, ?_⟩
    obtain ⟨pc, todo⟩ := th
    simp only at hidle hrest
    rw [hidle, hrest, hps]
    rfl

/-- The owner of the mutex, run alone, gives it back. -/
theorem EmitInv.release {heap : Heap} {head : Ptr} {nodes : List __slog_handler_node}
    {progs : List (List (slog_t × Ptr))} {c : Conc} {blocks : List (Nat × slog_t × Ptr)}
    (h : EmitInv heap head nodes progs c blocks) (hc : Chain heap head nodes) :
    ∃ sched, (Conc.run true c sched).__slog_lock = none := by
  cases hl : c.__slog_lock with
  | none => exact ⟨[], hl⟩
  | some t =>
    have ht := h.holder t hl
    have hget : c.threads[t]? = some c.threads[t] := List.getElem?_eq_getElem ht
    obtain ⟨cur, rest, _, _, hth⟩ := h.threads t c.threads[t] hget
    generalize c.threads[t] = th at hget hth
    obtain ⟨pc, todo⟩ := th
    have hunlock : ∀ c1 : Conc, c1.threads[t]? = some ⟨Pc.emit_unlock, todo⟩ →
        (Conc.run true c1 [t]).__slog_lock = none := by
      intro c1 h1
      simp [Conc.run, Conc.step, h1, Conc.unlock, Conc.goto]
    have hwalk : ∀ (c1 : Conc) (log : slog_t) (args : Ptr) (ptr : Ptr)
        (post : List __slog_handler_node), Chain c1.heap ptr post →
        c1.threads[t]? = some ⟨Pc.emit_walk log args ptr, todo⟩ →
        (Conc.run true c1 (List.replicate (post.length + 1) t ++ [t])).__slog_lock = none := by
      intro c1 log args ptr post hch h1
      rw [Conc.run_append, Conc.run_emit_walk true log args t todo post c1 ptr hch h1]
      exact hunlock _ (by simp [List.getElem?_set_self (getElem?_lt_length h1)])
    cases pc with
    | idle => exact absurd hl (show _ ∧ _ from hth).2
    | emit_head log args =>
      refine ⟨[t] ++ (List.replicate (nodes.length + 1) t ++ [t]), ?_⟩
      rw [Conc.run_append]
      have h1 : Conc.run true c [t]
          = c.goto t ⟨Pc.emit_walk log args c.__slog_handlers, todo⟩ := by
        simp [Conc.run, Conc.step, hget]
      rw [h1]
      refine hwalk _ log args c.__slog_handlers nodes ?_
        (by simp [Conc.goto, List.getElem?_set_self ht])
      show Chain c.heap c.__slog_handlers nodes
      rw [h.heap_eq, h.head_eq]
      exact hc
    | emit_walk log args ptr =>
      obtain ⟨_, _, pre, post, _, hch, _⟩ := (show _ ∧ _ ∧ ∃ pre post, _ ∧ _ ∧ _ from hth)
      exact ⟨_, hwalk c log args ptr post (by rw [h.heap_eq]; exact hch) hget⟩
    | emit_unlock => exact ⟨[t], hunlock c hget⟩
    | reg_lock node => exact absurd hth (by simp [EmitThread])
    | reg_store node => exact absurd hth (by simp [EmitThread])
    | reg_unlock => exact absurd hth (by simp [EmitThread])
    | faulted => exact absurd hth (by simp [EmitThread])

/-- No schedule gets the threads stuck: from any state that the invariant
describes, some further schedule lets every thread return. -/
theorem EmitInv.can_finish {heap : Heap} {head : Ptr} {nodes : List __slog_handler_node}
    {progs : List (List (slog_t × Ptr))} {c : Conc} {blocks : List (Nat × slog_t × Ptr)}
    (h : EmitInv heap head nodes progs c blocks) (hc : Chain heap head nodes) :
    ∃ sched, (Conc.run true c sched).finished = true := by
  obtain ⟨s1, hfree⟩ := h.release hc
  obtain ⟨blocks1, h1⟩ := EmitInv.run_preserved hc s1 c blocks h
  have hidle : ∀ th ∈ (Conc.run true c s1).threads,
      th.pc = Pc.idle ∧ ∃ rest, th.todo = List.map emit_task rest := by
    intro th hmem
    obtain ⟨t, ht, hget⟩ := List.getElem_of_mem hmem
    obtain ⟨cur, rest, _, htodo, hth⟩ := h1.threads t th (by rw [← hget]; exact List.getElem?_eq_getElem ht)
    have := emitThread_not_owner hth (by rw [hfree]; exact fun h2 => Option.noConfusion h2)
    exact ⟨this.1, rest, htodo⟩
  obtain ⟨ps, hps⟩ := threads_eq_map_of_idle _ hidle
  obtain ⟨s2, h2⟩ := Conc.exists_finishing nodes ps [] (Conc.run true c s1)
    (by rw [h1.heap_eq, h1.head_eq]; exact hc) hfree (by simpa using hps) (by simp)
  exact ⟨s1 ++ s2, by rw [Conc.run_append]; exact h2⟩

/-- One registration run without interruption, the mutex being free, does what
`slog_handlers_register` does in one thread. -/
theorem Conc.run_register (node : Ptr) (handler init uninit : FnPtr) (t : Nat)
    (rest : List Task) (c : Conc) (hn : node ≠ NULL) (hl : c.__slog_lock = none)
    (hget : c.threads[t]? = some ⟨Pc.idle, Task.register node handler init uninit :: rest⟩) :
    Conc.run true c [t, t, t, t]
        = { c with
            heap := c.heap.write node ⟨handler, init, uninit, c.__slog_handlers⟩
            __slog_handlers := node
            threads := c.threads.set t ⟨Pc.idle, rest⟩ }
      ∧ ∀ trace, slog_handlers_register ⟨c.heap, c.__slog_handlers, trace⟩ node handler init uninit
          = .ok ⟨(Conc.run true c [t, t, t, t]).heap,
              (Conc.run true c [t, t, t, t]).__slog_handlers, trace⟩ := by
  have ht := getElem?_lt_length hget
  have h1 : Conc.run true c [t, t, t, t]
      = { c with
          heap := c.heap.write node ⟨handler, init, uninit, c.__slog_handlers⟩
          __slog_handlers := node
          threads := c.threads.set t ⟨Pc.idle, rest⟩ } := by
    simp [Conc.run, Conc.step, hget, hn, Conc.lock, Conc.unlock, hl, Conc.goto,
      List.getElem?_set_self ht, List.set_set]
  refine ⟨h1, ?_⟩
  intro trace
  rw [h1]
  simp [slog_handlers_register, hn]

/-- One emit run without interruption, the mutex being free, makes the calls
that `__slog` makes in one thread. -/
theorem Conc.run_emit_agrees (nodes : List __slog_handler_node) (log : slog_t) (args : Ptr)
    (t : Nat) (rest : List Task) (c : Conc) (hch : Chain c.heap c.__slog_handlers nodes)
    (hl : c.__slog_lock = none)
    (hget : c.threads[t]? = some ⟨Pc.idle, Task.emit log args :: rest⟩) :
    ∃ calls, __slog (nodes.length + 1) ⟨c.heap, c.__slog_handlers, []⟩ log args
          = .ok ⟨c.heap, c.__slog_handlers, calls⟩
      ∧ (Conc.run true c (List.replicate (nodes.length + 4) t)).events
          = c.events ++ calls.map (fun call => (t, call)) := by
  refine ⟨nodes.filterMap (delivery log args), ?_, ?_⟩
  · have h := __slog_chain (s := ⟨c.heap, c.__slog_handlers, []⟩) (nodes.length + 1) log args
      hch (Nat.lt_succ_self _)
    simpa using h
  · rw [Conc.run_emit nodes log args t rest c hch hl hget]
    rfl

/-! ## Threads that only emit, in either build -/

theorem events_of_append_other (events : List (Nat × Call)) (t u : Nat) (call : Call)
    (h : t ≠ u) : events_of (events ++ [(t, call)]) u = events_of events u := by
  have : (t == u) = false := by simpa using h
  simp [events_of, List.filter_append, List.filter_cons, this]

theorem events_of_append_self (events : List (Nat × Call)) (t : Nat) (call : Call) :
    events_of (events ++ [(t, call)]) t = events_of events t ++ [(t, call)] := by
  simp [events_of, List.filter_append, List.filter_cons]

theorem Conc.lock_eq {b : Bool} {c c1 : Conc} {t : Nat} (h : c.lock b t = some c1) :
    c1.heap = c.heap ∧ c1.__slog_handlers = c.__slog_handlers ∧ c1.threads = c.threads
      ∧ c1.events = c.events := by
  unfold Conc.lock at h
  cases b with
  | false =>
    simp only [Bool.false_eq_true, if_false, Option.some.injEq] at h
    subst h
    exact ⟨rfl, rfl, rfl, rfl⟩
  | true =>
    simp only [if_true] at h
    cases hl : c.__slog_lock with
    | some u => rw [hl] at h; exact Option.noConfusion h
    | none =>
      rw [hl] at h
      injection h with h
      subst h
      exact ⟨rfl, rfl, rfl, rfl⟩

theorem Conc.unlock_eq (b : Bool) (c : Conc) :
    (c.unlock b).heap = c.heap ∧ (c.unlock b).__slog_handlers = c.__slog_handlers
      ∧ (c.unlock b).threads = c.threads ∧ (c.unlock b).events = c.events := by
  cases b <;> exact ⟨rfl, rfl, rfl, rfl⟩

/-- A step of thread `t` that adds at most one event, of `t`, keeps the
invariant when it keeps it for `t` itself. -/
theorem EmitProj.frame {heap : Heap} {head : Ptr} {nodes : List __slog_handler_node}
    {progs : List (List (slog_t × Ptr))} {c c1 : Conc}
    (h : EmitProj heap head nodes progs c) (t : Nat) (th th1 : Thread)
    (hget : c.threads[t]? = some th)
    (hheap : c1.heap = c.heap) (hhead : c1.__slog_handlers = c.__slog_handlers)
    (hthreads : c1.threads = c.threads.set t th1)
    (hev : c1.events = c.events ∨ ∃ call, c1.events = c.events ++ [(t, call)])
    (hthread : ∃ done cur rest, progs[t]? = some (done ++ cur ++ rest)
      ∧ th1.todo = rest.map emit_task
      ∧ ProjThread heap nodes t th1 done cur (events_of c1.events t)) :
    EmitProj heap head nodes progs c1 := by
  have ht : t < c.threads.length := by
    rcases Nat.lt_or_ge t c.threads.length with h1 | h1
    · exact h1
    · rw [List.getElem?_eq_none h1] at hget
      exact Option.noConfusion hget
  refine ⟨hheap.trans h.heap_eq, hhead.trans h.head_eq, ?_, ?_, ?_⟩
  · rw [hthreads, List.length_set]; exact h.length_eq
  · intro e he
    rcases hev with h1 | ⟨call, h1⟩
    · rw [h1] at he; exact h.tids e he
    · rw [h1] at he
      rcases List.mem_append.mp he with h2 | h2
      · exact h.tids e h2
      · have : e = (t, call) := by simpa using h2
        rw [this, ← h.length_eq]; exact ht
  · intro u thu hu
    by_cases hut : u = t
    · subst hut
      rw [hthreads, List.getElem?_set_self ht] at hu
      injection hu with hu
      subst hu
      exact hthread
    · rw [hthreads, List.getElem?_set_ne (Ne.symm hut)] at hu
      obtain ⟨done, cur, rest, hp, htodo, hth⟩ := h.threads u thu hu
      refine ⟨done, cur, rest, hp, htodo, ?_⟩
      rcases hev with h1 | ⟨call, h1⟩
      · rw [h1]; exact hth
      · rw [h1, events_of_append_other _ _ _ _ (Ne.symm hut)]; exact hth

theorem EmitProj.step_kept {heap : Heap} {head : Ptr} {nodes : List __slog_handler_node}
    {progs : List (List (slog_t × Ptr))} {c : Conc}
    (h : EmitProj heap head nodes progs c) (hc : Chain heap head nodes) (b : Bool) (t : Nat) :
    EmitProj heap head nodes progs (c.step b t) := by
  unfold Conc.step
  cases hget : c.threads[t]? with
  | none => exact h
  | some th =>
    obtain ⟨done, cur, rest, hp, htodo, hth⟩ := h.threads t th hget
    obtain ⟨pc, todo⟩ := th
    simp only at htodo
    subst htodo
    cases pc with
    | idle =>
      obtain ⟨hcur, hev⟩ := (show _ ∧ _ from hth)
      subst hcur
      cases rest with
      | nil => exact h
      | cons e rest1 =>
        simp only [List.map_cons, emit_task]
        cases hlk : c.lock b t with
        | none => exact h
        | some c1 =>
          obtain ⟨h1, h2, h3, h4⟩ := Conc.lock_eq hlk
          refine h.frame t _ ⟨Pc.emit_head e.1 e.2, List.map emit_task rest1⟩ hget h1 h2
            (by show c1.threads.set t _ = _; rw [h3]) (Or.inl h4)
            ⟨done, [e], rest1, ?_, rfl, ?_⟩
          · simpa using hp
          · refine (show _ ∧ _ from ⟨rfl, ?_⟩)
            show events_of c1.events t = _
            rw [h4]; exact hev
    | emit_head log args =>
      obtain ⟨hcur, hev⟩ := (show _ ∧ _ from hth)
      refine h.frame t _ _ hget rfl rfl rfl (Or.inl rfl) ⟨done, cur, rest, hp, rfl, ?_⟩
      refine (show _ ∧ _ from ⟨hcur, [], nodes, rfl, ?_, ?_⟩)
      · rw [h.head_eq]; exact hc
      · show events_of c.events t = _
        rw [hev]; simp [emit_block]
    | emit_walk log args ptr =>
      obtain ⟨hcur, pre, post, hnodes, hchain, hev⟩ :=
        (show _ ∧ ∃ pre post, _ ∧ _ ∧ _ from hth)
      cases post with
      | nil =>
        have hptr : ptr = NULL := hchain
        simp only [hptr, if_true]
        have hpre : pre = nodes := by simpa using hnodes.symm
        refine h.frame t _ _ hget rfl rfl rfl (Or.inl rfl)
          ⟨done ++ [(log, args)], [], rest, ?_, rfl, ?_⟩
        · rw [hp, hcur]; simp
        · refine (show _ ∧ _ from ⟨rfl, ?_⟩)
          show events_of c.events t = _
          rw [hev, hpre]
          simp
      | cons n post1 =>
        have hptr : ptr ≠ NULL := hchain.1
        have hread : c.heap.read ptr = some n := by rw [h.heap_eq]; exact hchain.2.1
        simp only [hptr, if_false, hread]
        cases hh : n.handler with
        | none =>
          refine h.frame t _ _ hget rfl rfl rfl (Or.inl rfl) ⟨done, cur, rest, hp, rfl, ?_⟩
          refine (show _ ∧ _ from ⟨hcur, pre ++ [n], post1, ?_, hchain.2.2, ?_⟩)
          · rw [hnodes]; simp
          · show events_of c.events t = _
            rw [hev]
            simp [emit_block, List.filterMap_append, delivery, hh]
        | some f =>
          refine h.frame t _ _ hget rfl rfl rfl (Or.inr ⟨Call.handler f log args, rfl⟩)
            ⟨done, cur, rest, hp, rfl, ?_⟩
          refine (show _ ∧ _ from ⟨hcur, pre ++ [n], post1, ?_, hchain.2.2, ?_⟩)
          · rw [hnodes]; simp
          · show events_of (c.events ++ [(t, Call.handler f log args)]) t = _
            rw [events_of_append_self, hev]
            simp [emit_block, List.filterMap_append, delivery, hh]
    | emit_unlock =>
      obtain ⟨hcur, hev⟩ := (show _ ∧ _ from hth)
      obtain ⟨h1, h2, h3, h4⟩ := Conc.unlock_eq b c
      refine h.frame t _ ⟨Pc.idle, List.map emit_task rest⟩ hget h1 h2
        (by show (c.unlock b).threads.set t _ = _; rw [h3]) (Or.inl h4)
        ⟨done, cur, rest, hp, rfl, ?_⟩
      refine (show _ ∧ _ from ⟨hcur, ?_⟩)
      show events_of (c.unlock b).events t = _
      rw [h4]; exact hev
    | reg_lock node => exact absurd hth (by simp [ProjThread])
    | reg_store node => exact absurd hth (by simp [ProjThread])
    | reg_unlock => exact absurd hth (by simp [ProjThread])
    | faulted => exact absurd hth (by simp [ProjThread])

theorem EmitProj.holds_at_start (heap : Heap) (head : Ptr) (nodes : List __slog_handler_node)
    (progs : List (List (slog_t × Ptr))) :
    EmitProj heap head nodes progs
      (Conc.start heap head (progs.map (fun p => p.map emit_task))) := by
  refine ⟨rfl, rfl, by simp [Conc.start], ?_, ?_⟩
  · intro e he
    simp [Conc.start] at he
  · intro t th hth
    simp only [Conc.start, List.getElem?_map, List.map_map] at hth
    cases hp : progs[t]? with
    | none => simp [hp] at hth
    | some p =>
      simp only [hp, Option.map_some', Option.some.injEq, Function.comp] at hth
      subst hth
      exact ⟨[], [], p, by simp, rfl, (show _ ∧ _ from ⟨rfl, rfl⟩)⟩

theorem EmitProj.run_kept {heap : Heap} {head : Ptr} {nodes : List __slog_handler_node}
    {progs : List (List (slog_t × Ptr))} (hc : Chain heap head nodes) (b : Bool) :
    ∀ (sched : List Nat) (c : Conc), EmitProj heap head nodes progs c →
      EmitProj heap head nodes progs (Conc.run b c sched)
  | [], _, h => h
  | t :: ts, _, h => EmitProj.run_kept hc b ts _ (h.step_kept hc b t)

/-- When every thread has returned, the events of each thread are the calls of
the emits of its program, one whole emit after the other. -/
theorem EmitProj.per_thread_finished {heap : Heap} {head : Ptr} {nodes : List __slog_handler_node}
    {progs : List (List (slog_t × Ptr))} {c : Conc}
    (h : EmitProj heap head nodes progs c) (hfin : c.finished = true) :
    ∀ t, t < progs.length → ∃ p, progs[t]? = some p
      ∧ events_of c.events t = (p.map (fun e => (t, e))).flatMap (emit_block nodes) := by
  have hall : ∀ th ∈ c.threads, th.pc = Pc.idle ∧ th.todo = [] := by
    intro th hth
    have := List.all_eq_true.mp hfin th hth
    simpa using this
  intro t ht
  have ht1 : t < c.threads.length := by rw [h.length_eq]; exact ht
  obtain ⟨done, cur, rest, hp, htodo, hth⟩ :=
    h.threads t c.threads[t] (List.getElem?_eq_getElem ht1)
  obtain ⟨hidle, hempty⟩ := hall _ (List.getElem_mem ht1)
  unfold ProjThread at hth
  rw [hidle] at hth
  rw [hempty] at htodo
  have hrest : rest = [] := by simpa using htodo.symm
  refine ⟨done, ?_, hth.2⟩
  rw [hp, hth.1, hrest]
  simp

theorem countP_eq_sum_events_of (M : Nat) (p : Nat × Call → Bool) :
    ∀ events : List (Nat × Call), (∀ e ∈ events, e.1 < M) →
      events.countP p = ∑ t in Finset.range M, (events_of events t).countP p
  | [], _ => by simp [events_of]
  | e :: es, h => by
    have ih := countP_eq_sum_events_of M p es (fun x hx => h x (List.mem_cons_of_mem _ hx))
    have he : e.1 < M := h e (List.mem_cons_self _ _)
    have hstep : ∀ t, (events_of (e :: es) t).countP p
        = (if e.1 = t then (if p e = true then 1 else 0) else 0) + (events_of es t).countP p := by
      intro t
      by_cases het : e.1 = t
      · simp [events_of, List.filter_cons, het, List.countP_cons, Nat.add_comm]
      · simp [events_of, List.filter_cons, het]
    simp only [hstep, Finset.sum_add_distrib, Finset.sum_ite_eq, Finset.mem_range, he, if_true]
    rw [List.countP_cons, ih, Nat.add_comm]

/-- When every thread has returned, with `T` emits per thread, every handler
has been called `T` times per thread for each node that stores it. -/
theorem EmitProj.count {heap : Heap} {head : Ptr} {nodes : List __slog_handler_node}
    {progs : List (List (slog_t × Ptr))} {c : Conc}
    (h : EmitProj heap head nodes progs c) (hfin : c.finished = true) (T : Nat)
    (hT : ∀ p ∈ progs, p.length = T) (f : Nat) :
    c.events.countP (calls_handler f)
      = progs.length * T * nodes.countP (fun n => n.handler == some f) := by
  rw [countP_eq_sum_events_of progs.length (calls_handler f) c.events h.tids]
  have hthread : ∀ t ∈ Finset.range progs.length,
      (events_of c.events t).countP (calls_handler f)
        = T * nodes.countP (fun n => n.handler == some f) := by
    intro t ht
    have ht1 : t < progs.length := Finset.mem_range.mp ht
    obtain ⟨p, hp, hev⟩ := h.per_thread_finished hfin t ht1
    rw [hev, countP_calls_handler_blocks, List.length_map]
    rw [List.getElem?_eq_getElem ht1] at hp
    injection hp with hp
    rw [← hp, hT _ (List.getElem_mem ht1)]
  rw [Finset.sum_congr rfl hthread]
  simp [Nat.mul_assoc]

/-- One emit run without interruption in the build without the mutex. -/
theorem Conc.run_emit_unlocked (nodes : List __slog_handler_node) (log : slog_t) (args : Ptr)
    (t : Nat) (rest : List Task) (c : Conc) (hch : Chain c.heap c.__slog_handlers nodes)
    (hget : c.threads[t]? = some ⟨Pc.idle, Task.emit log args :: rest⟩) :
    Conc.run false c (List.replicate (nodes.length + 4) t)
      = { c with
          threads := c.threads.set t ⟨Pc.idle, rest⟩
          events := c.events ++ emit_block nodes (t, log, args) } := by
  have ht := getElem?_lt_length hget
  have hsplit : List.replicate (nodes.length + 4) t
      = [t, t] ++ (List.replicate (nodes.length + 1) t ++ [t]) := by
    rw [← List.replicate_succ', List.replicate_succ, List.replicate_succ]
    rfl
  rw [hsplit, Conc.run_append, Conc.run_append]
  have h2 : Conc.run false c [t, t]
      = { c with
          threads := c.threads.set t ⟨Pc.emit_walk log args c.__slog_handlers, rest⟩ } := by
    simp [Conc.run, Conc.step, hget, Conc.lock, Conc.goto, List.getElem?_set_self ht,
      List.set_set]
  have key := Conc.run_emit_walk false log args t rest nodes
    (Conc.mk c.heap c.__slog_handlers c.__slog_lock
      (c.threads.set t ⟨Pc.emit_walk log args c.__slog_handlers, rest⟩) c.events)
    c.__slog_handlers hch (by simp [List.getElem?_set_self ht])
  rw [h2, key]
  simp [Conc.run, Conc.step, List.getElem?_set_self ht, Conc.unlock, Conc.goto, List.set_set]

/-- All the emits of one thread, run without interruption, in the build
without the mutex. -/
theorem Conc.run_thread_unlocked (nodes : List __slog_handler_node) (t : Nat) :
    ∀ (p : List (slog_t × Ptr)) (c : Conc), Chain c.heap c.__slog_handlers nodes →
      c.threads[t]? = some ⟨Pc.idle, p.map emit_task⟩ →
      ∃ sched ev, Conc.run false c sched
        = { c with threads := c.threads.set t ⟨Pc.idle, []⟩, events := ev }
  | [], c, _, hget => by
    refine ⟨[], c.events, ?_⟩
    have : c.threads.set t ⟨Pc.idle, []⟩ = c.threads := set_eq_self_of_getElem? hget
    simp [Conc.run, this]
  | e :: p1, c, hch, hget => by
    have ht := getElem?_lt_length hget
    have h1 := Conc.run_emit_unlocked nodes e.1 e.2 t (p1.map emit_task) c hch hget
    obtain ⟨sched, ev, h2⟩ := Conc.run_thread_unlocked nodes t p1
      (Conc.mk c.heap c.__slog_handlers c.__slog_lock (c.threads.set t ⟨Pc.idle, p1.map emit_task⟩)
        (c.events ++ emit_block nodes (t, e.1, e.2)))
      hch (by simp [List.getElem?_set_self ht])
    refine ⟨List.replicate (nodes.length + 4) t ++ sched, ev, ?_⟩
    rw [Conc.run_append, h1, h2]
    simp [List.set_set]

/-- The emit under way in a thread, if any, run to its end in the build
without the mutex. -/
theorem Conc.finish_emit_unlocked (nodes : List __slog_handler_node) (t : Nat) (th : Thread)
    (c : Conc) (hch : Chain c.heap c.__slog_handlers nodes) (hget : c.threads[t]? = some th)
    (hfin : Finishable c.heap th) :
    ∃ sched ev, Conc.run false c sched
      = { c with threads := c.threads.set t ⟨Pc.idle, th.todo⟩, events := ev } := by
  have ht := getElem?_lt_length hget
  obtain ⟨pc, todo⟩ := th
  have hunlock : ∀ c1 : Conc, c1.threads[t]? = some ⟨Pc.emit_unlock, todo⟩ →
      Conc.run false c1 [t] = { c1 with threads := c1.threads.set t ⟨Pc.idle, todo⟩ } := by
    intro c1 h1
    simp [Conc.run, Conc.step, h1, Conc.unlock, Conc.goto]
  have hwalk : ∀ (c1 : Conc) (log : slog_t) (args : Ptr) (ptr : Ptr)
      (post : List __slog_handler_node), Chain c1.heap ptr post →
      c1.threads[t]? = some ⟨Pc.emit_walk log args ptr, todo⟩ →
      Conc.run false c1 (List.replicate (post.length + 1) t ++ [t])
        = { c1 with
            threads := c1.threads.set t ⟨Pc.idle, todo⟩
            events := c1.events ++ emit_block post (t, log, args) } := by
    intro c1 log args ptr post hch1 h1
    have ht1 := getElem?_lt_length h1
    rw [Conc.run_append, Conc.run_emit_walk false log args t todo post c1 ptr hch1 h1,
      hunlock _ (by simp [List.getElem?_set_self ht1])]
    simp [List.set_set]
  cases pc with
  | idle =>
    refine ⟨[], c.events, ?_⟩
    have : c.threads.set t ⟨Pc.idle, todo⟩ = c.threads := set_eq_self_of_getElem? hget
    simp [Conc.run, this]
  | emit_head log args =>
    refine ⟨[t] ++ (List.replicate (nodes.length + 1) t ++ [t]),
      c.events ++ emit_block nodes (t, log, args), ?_⟩
    rw [Conc.run_append]
    have h1 : Conc.run false c [t]
        = Conc.mk c.heap c.__slog_handlers c.__slog_lock
            (c.threads.set t ⟨Pc.emit_walk log args c.__slog_handlers, todo⟩) c.events := by
      simp [Conc.run, Conc.step, hget, Conc.goto]
    have h2 := hwalk
      (Conc.mk c.heap c.__slog_handlers c.__slog_lock
        (c.threads.set t ⟨Pc.emit_walk log args c.__slog_handlers, todo⟩) c.events)
      log args c.__slog_handlers nodes hch (by simp [List.getElem?_set_self ht])
    rw [h1, h2]
    simp [List.set_set]
  | emit_walk log args ptr =>
    obtain ⟨post, hpost⟩ := hfin.2
    exact ⟨_, _, hwalk c log args ptr post hpost hget⟩
  | emit_unlock =>
    exact ⟨[t], c.events, hunlock c hget⟩
  | reg_lock node => exact absurd hfin.2 (by simp)
  | reg_store node => exact absurd hfin.2 (by simp)
  | reg_unlock => exact absurd hfin.2 (by simp)
  | faulted => exact absurd hfin.2 (by simp)

/-- In the build without the mutex the threads can all run to the end. -/
theorem Conc.exists_finishing_unlocked (nodes : List __slog_handler_node) :
    ∀ (remaining done : List Thread) (c : Conc),
      Chain c.heap c.__slog_handlers nodes →
      c.threads = done ++ remaining →
      (∀ th ∈ done, th.pc = Pc.idle ∧ th.todo = []) →
      (∀ th ∈ remaining, Finishable c.heap th) →
      ∃ sched, (Conc.run false c sched).finished = true
  | [], done, c, _, hth, hdone, _ => by
    refine ⟨[], ?_⟩
    simp only [Conc.run, Conc.finished, List.all_eq_true]
    intro th hmem
    rw [hth] at hmem
    have := hdone th (by simpa using hmem)
    simp [this.1, this.2]
  | th :: remaining, done, c, hch, hth, hdone, hrem => by
    have hget : c.threads[done.length]? = some th := by
      rw [hth, List.getElem?_append_right (Nat.le_refl _)]
      simp
    have ht := getElem?_lt_length hget
    have hfin := hrem th (List.mem_cons_self _ _)
    obtain ⟨rest, hrest⟩ := hfin.1
    obtain ⟨s1, ev1, h1⟩ := Conc.finish_emit_unlocked nodes done.length th c hch hget hfin
    obtain ⟨s2, ev2, h2⟩ := Conc.run_thread_unlocked nodes done.length rest
      (Conc.mk c.heap c.__slog_handlers c.__slog_lock
        (c.threads.set done.length ⟨Pc.idle, th.todo⟩) ev1)
      hch (by simp [List.getElem?_set_self ht, hrest])
    obtain ⟨s3, h3⟩ := Conc.exists_finishing_unlocked nodes remaining (done ++ [⟨Pc.idle, []⟩])
      (Conc.mk c.heap c.__slog_handlers c.__slog_lock (c.threads.set done.length ⟨Pc.idle, []⟩) ev2)
      hch
      (by
        show c.threads.set done.length ⟨Pc.idle, []⟩ = _
        rw [hth, List.set_append_right _ _ (Nat.le_refl _)]
        simp)
      (by
        intro x hmem
        rcases List.mem_append.mp hmem with h4 | h4
        · exact hdone x h4
        · have : x = ⟨Pc.idle, []⟩ := by simpa using h4
          rw [this]
          exact ⟨rfl, rfl⟩)
      (fun x hx => hrem x (List.mem_cons_of_mem _ hx))
    refine ⟨s1 ++ (s2 ++ s3), ?_⟩
    rw [Conc.run_append, h1, Conc.run_append, h2]
    simpa [List.set_set] using h3

/-- No schedule gets the threads stuck in the build without the mutex. -/
theorem EmitProj.can_finish_unlocked {heap : Heap} {head : Ptr}
    {nodes : List __slog_handler_node} {progs : List (List (slog_t × Ptr))} {c : Conc}
    (h : EmitProj heap head nodes progs c) (hc : Chain heap head nodes) :
    ∃ sched, (Conc.run false c sched).finished = true := by
  refine Conc.exists_finishing_unlocked nodes c.threads [] c
    (by rw [h.heap_eq, h.head_eq]; exact hc) (by simp) (by simp) ?_
  intro th hmem
  obtain ⟨t, ht, hget⟩ := List.getElem_of_mem hmem
  obtain ⟨done, cur, rest, _, htodo, hth⟩ :=
    h.threads t th (by rw [← hget]; exact List.getElem?_eq_getElem ht)
  refine ⟨⟨rest, htodo⟩, ?_⟩
  unfold ProjThread at hth
  cases hpc : th.pc <;> rw [hpc] at hth <;> simp only at hth ⊢
  · obtain ⟨_, pre, post, _, hch, _⟩ := hth
    exact ⟨post, by rw [h.heap_eq]; exact hch⟩

/-- Without `SLOG_PTHREAD` nothing keeps two emits apart: two threads, one emit
each, on a registry of two handlers, taking turns. -/
theorem unlocked_emits_interleave :
    (Conc.run false
        (Conc.start [(20, ⟨some 2, none, none, 10⟩), (10, ⟨some 1, none, none, 0⟩)] 20
          [[Task.emit ⟨SLOG_INFO, [], 1, [], [], 14⟩ 0],
           [Task.emit ⟨SLOG_WARN, [], 2, [], [], 16⟩ 0]])
        [0, 1, 0, 1, 0, 1, 0, 1, 0, 1, 0, 1]).events
      = [(0, Call.handler 2 ⟨SLOG_INFO, [], 1, [], [], 14⟩ 0),
         (1, Call.handler 2 ⟨SLOG_WARN, [], 2, [], [], 16⟩ 0),
         (0, Call.handler 1 ⟨SLOG_INFO, [], 1, [], [], 14⟩ 0),
         (1, Call.handler 1 ⟨SLOG_WARN, [], 2, [], [], 16⟩ 0)] :=
  rfl

/-! ## Claims -/

/-- C1 (registration order): when handlers `h1, ..., hN` are registered in that
order on an empty registry, every registration succeeds, and a following
`__slog` with fuel above `N` completes and calls exactly `hN, ..., h1`, in that
order, each with the log and the context given. -/
theorem registration_order_reversed (s : State) (rs : List Registration) (hs : List Nat)
    (hempty : s.__slog_handlers = NULL)
    (hdistinct : (rs.map Registration.node).Nodup)
    (hfresh : ∀ r ∈ rs, r.node ≠ NULL ∧ s.heap.read r.node = none)
    (hhandlers : rs.map Registration.handler = hs.map some) :
    ∃ s1, register_all s rs = .ok s1 ∧ s1.trace = s.trace ∧
      ∀ (fuel : Nat) (log : slog_t) (args : Ptr), hs.length < fuel →
        __slog fuel s1 log args
          = .ok { s1 with
              trace := s1.trace ++ hs.reverse.map (fun h => Call.handler h log args) } := by
  have hc : Chain s.heap s.__slog_handlers [] := hempty
  obtain ⟨s1, nodes1, hrun, htr, hch, hent⟩ := register_all_chain rs s [] hc hdistinct hfresh
  refine ⟨s1, hrun, htr, ?_⟩
  intro fuel log args hf
  have hlen : nodes1.length = hs.length := by
    have h1 := congrArg List.length hent
    have h2 := congrArg List.length hhandlers
    simp at h1 h2
    omega
  rw [__slog_chain fuel log args hch (by omega), delivery_eq_entry, hent]
  have hfst : (rs.reverse.map Registration.entry).map (fun e => e.1) = hs.reverse.map some := by
    rw [List.map_map, List.map_reverse, List.map_reverse, ← hhandlers]
    rfl
  have : (rs.reverse.map Registration.entry ++ List.map entry []).filterMap
        (fun e => e.1.map (fun f => Call.handler f log args))
      = hs.reverse.map (fun h => Call.handler h log args) := by
    rw [List.map_nil, List.append_nil,
      ← filterMap_some_map (fun h => Call.handler h log args) hs.reverse, ← hfst,
      List.filterMap_map, List.filterMap_map, List.filterMap_map]
    rfl
  rw [this]

/-- Witness of C1: three handlers registered at addresses 10, 20, 30 on the
initial state. -/
theorem registration_order_reversed_witness :
    ∃ s1, register_all State.initial
        [⟨10, some 1, none, none⟩, ⟨20, some 2, some 7, none⟩, ⟨30, some 3, none, some 9⟩] = .ok s1
      ∧ s1.trace = State.initial.trace ∧
      ∀ (fuel : Nat) (log : slog_t) (args : Ptr), [1, 2, 3].length < fuel →
        __slog fuel s1 log args
          = .ok { s1 with
              trace := s1.trace ++ [1, 2, 3].reverse.map (fun h => Call.handler h log args) } :=
  registration_order_reversed State.initial
    [⟨10, some 1, none, none⟩, ⟨20, some 2, some 7, none⟩, ⟨30, some 3, none, some 9⟩] [1, 2, 3]
    rfl (by decide) (by decide) rfl

/-- C2 (delivery completeness): on a registry of nodes `nodes`, an emit
(`SLOG_RAW`) with fuel above the number of nodes completes, leaves heap and head
as they were, and makes exactly one call per node whose handler is present, in
list order, every call carrying the same log (level, message, time, file,
function, line of the emit) and the same context pointer; nodes without a
handler are skipped and the nodes after them are still served.  When all `K`
handlers are present the calls are exactly those `K` handlers. -/
theorem delivery_complete (s : State) (nodes : List __slog_handler_node) (fuel : Nat)
    (site : Site) (level : slog_level_t) (args : Ptr) (message : List Char)
    (hc : Chain s.heap s.__slog_handlers nodes) (hf : nodes.length < fuel) :
    SLOG_RAW fuel s site level args message
        = .ok { s with
            trace := s.trace ++ nodes.filterMap (fun n => n.handler.map (fun f =>
              Call.handler f ⟨level, message, site.now, site.file, site.func, site.line⟩ args)) }
      ∧ ∀ hs : List Nat, nodes.map (fun n => n.handler) = hs.map some →
          hs.length = nodes.length ∧
          nodes.filterMap (fun n => n.handler.map (fun f =>
              Call.handler f ⟨level, message, site.now, site.file, site.func, site.line⟩ args))
            = hs.map (fun h =>
              Call.handler h ⟨level, message, site.now, site.file, site.func, site.line⟩ args) := by
  refine ⟨__slog_chain fuel _ args hc hf, ?_⟩
  intro hs hhs
  refine ⟨by simpa using (congrArg List.length hhs).symm, ?_⟩
  rw [← filterMap_some_map _ hs, ← hhs, List.filterMap_map]
  rfl

/-- Witness of C2: a registry of three nodes, the middle one without handler. -/
theorem delivery_complete_witness :
    SLOG_RAW 4
        ⟨[(30, ⟨some 3, none, some 9, 20⟩), (20, ⟨none, some 7, none, 10⟩),
          (10, ⟨some 1, none, none, 0⟩)], 30, []⟩
        ⟨5, [], [], 14⟩ SLOG_INFO 0 []
      = .ok ⟨[(30, ⟨some 3, none, some 9, 20⟩), (20, ⟨none, some 7, none, 10⟩),
          (10, ⟨some 1, none, none, 0⟩)], 30,
          [Call.handler 3 ⟨SLOG_INFO, [], 5, [], [], 14⟩ 0,
           Call.handler 1 ⟨SLOG_INFO, [], 5, [], [], 14⟩ 0]⟩ :=
  (delivery_complete
    ⟨[(30, ⟨some 3, none, some 9, 20⟩), (20, ⟨none, some 7, none, 10⟩),
      (10, ⟨some 1, none, none, 0⟩)], 30, []⟩
    [⟨some 3, none, some 9, 20⟩, ⟨none, some 7, none, 10⟩, ⟨some 1, none, none, 0⟩]
    4 ⟨5, [], [], 14⟩ SLOG_INFO 0 []
    ⟨by decide, rfl, by decide, rfl, by decide, rfl, rfl⟩ (by decide)).1

/-- After `slog_uninit` on a non-empty registry the global `__slog_handlers`
still holds the address of the first node, which has been freed, and a
following `__slog` reads through it. -/
theorem slog_uninit_dangling (s : State) (nodes : List __slog_handler_node) (fuel : Nat)
    (hc : Chain s.heap s.__slog_handlers nodes) (hne : nodes ≠ [])
    (hf : nodes.length < fuel) :
    ∃ s1, slog_uninit fuel s = .ok s1 ∧ s1.__slog_handlers = s.__slog_handlers
      ∧ s1.__slog_handlers ≠ NULL ∧ s1.heap.read s1.__slog_handlers = none
      ∧ ∀ (fuel1 : Nat) (log : slog_t) (args : Ptr),
          __slog (fuel1 + 1) s1 log args = .error .invalid_access := by
  obtain ⟨heap1, hrun, _, hfreed⟩ := slog_uninit_loop_chain nodes fuel s.heap _ hc hf
  have hnn : s.__slog_handlers ≠ NULL := by
    cases nodes with
    | nil => exact absurd rfl hne
    | cons n ns => exact hc.1
  refine ⟨{ s with heap := heap1 }, by simp [slog_uninit, hrun], rfl, hnn, hfreed hne, ?_⟩
  intro fuel1 log args
  simp [__slog, __slog_loop, hnn, hfreed hne]

/-- C3 (teardown, as the code runs): after one registration (node at address
10) and `slog_uninit`, the registry head is not reset: `__slog_handlers` is
still 10, the node at 10 is freed, and a following `__slog` never completes
normally: with any positive fuel it reads freed memory. -/
theorem slog_uninit_head_not_reset :
    ∃ s1 s2, slog_handlers_register State.initial 10 (some 1) none none = .ok s1
      ∧ slog_uninit 2 s1 = .ok s2
      ∧ s2.__slog_handlers = 10 ∧ s2.__slog_handlers ≠ NULL ∧ s2.heap.read 10 = none
      ∧ ∀ (fuel : Nat) (log : slog_t) (args : Ptr),
          __slog (fuel + 1) s2 log args = .error .invalid_access :=
  ⟨⟨[(10, ⟨some 1, none, none, 0⟩)], 10, []⟩, ⟨[], 10, []⟩, rfl, rfl, rfl, by decide, rfl,
    fun _ _ _ => rfl⟩

/-- C4 (level mapping): the six named levels map to their names, and every
integer below 0 or above 5 maps to "UNKNOWN". -/
theorem level_mapping :
    slog_level_string SLOG_TRACE = "TRACE" ∧ slog_level_string SLOG_DEBUG = "DEBUG"
      ∧ slog_level_string SLOG_INFO = "INFO" ∧ slog_level_string SLOG_WARN = "WARN"
      ∧ slog_level_string SLOG_ERROR = "ERROR" ∧ slog_level_string SLOG_FATAL = "FATAL"
      ∧ ∀ level : slog_level_t, level < 0 ∨ 5 < level → slog_level_string level = "UNKNOWN" := by
  refine ⟨rfl, rfl, rfl, rfl, rfl, rfl, ?_⟩
  intro level h
  have h : @LT.lt Int _ level 0 ∨ @LT.lt Int _ 5 level := h
  have h0 : ¬ @Eq Int level 0 := by omega
  have h1 : ¬ @Eq Int level 1 := by omega
  have h2 : ¬ @Eq Int level 2 := by omega
  have h3 : ¬ @Eq Int level 3 := by omega
  have h4 : ¬ @Eq Int level 4 := by omega
  have h5 : ¬ @Eq Int level 5 := by omega
  simp [slog_level_string, SLOG_TRACE, SLOG_DEBUG, SLOG_INFO, SLOG_WARN, SLOG_ERROR, SLOG_FATAL,
    h0, h1, h2, h3, h4, h5]

/-- Witness of C4: the values 6 and -1 are outside the enum. -/
theorem level_mapping_witness :
    slog_level_string 6 = "UNKNOWN" ∧ slog_level_string (-1) = "UNKNOWN" :=
  ⟨level_mapping.2.2.2.2.2.2 6 (by decide), level_mapping.2.2.2.2.2.2 (-1) (by decide)⟩

/-- C6 (uninit hooks are never run): `slog_uninit` makes no call at all: when
it completes the trace is unchanged, and on a well-formed registry it does
complete; no sequence of operations (register, `slog_init`, `slog_uninit`,
`__slog`) that completes adds a call of an uninit hook to the trace; and
`slog_handlers_register` does store the uninit pointer in the new first node. -/
theorem uninit_hook_never_called :
    (∀ (fuel : Nat) (s s1 : State), slog_uninit fuel s = .ok s1 → s1.trace = s.trace)
      ∧ (∀ (s : State) (nodes : List __slog_handler_node) (fuel : Nat),
          Chain s.heap s.__slog_handlers nodes → nodes.length < fuel →
          ∃ s1, slog_uninit fuel s = .ok s1 ∧ s1.trace = s.trace)
      ∧ (∀ (fuel : Nat) (ops : List Op) (s s1 : State), run_ops fuel s ops = .ok s1 →
          ∃ calls, s1.trace = s.trace ++ calls ∧ ∀ f, Call.uninit f ∉ calls)
      ∧ (∀ (s s1 : State) (node : Ptr) (handler init uninit : FnPtr),
          slog_handlers_register s node handler init uninit = .ok s1 →
          ∃ n, s1.heap.read s1.__slog_handlers = some n ∧ n.uninit = uninit) := by
  refine ⟨fun fuel s s1 h => (slog_uninit_trace fuel s s1 h).1, ?_,
    fun fuel ops s s1 h => run_ops_calls fuel ops s s1 h, ?_⟩
  · intro s nodes fuel hc hf
    obtain ⟨heap1, hrun, _, _⟩ := slog_uninit_loop_chain nodes fuel s.heap _ hc hf
    exact ⟨{ s with heap := heap1 }, by simp [slog_uninit, hrun], rfl⟩
  · intro s s1 node handler init uninit h
    unfold slog_handlers_register at h
    split at h
    · simp at h
    · injection h with h
      subst h
      exact ⟨_, read_write_eq _ _ _, rfl⟩

/-- Witness of C6: two nodes with uninit hooks 8 and 9; register, init, emit and
teardown run to completion and the trace holds no call of 8 or 9. -/
theorem uninit_hook_never_called_witness :
    ∃ s1, run_ops 3 State.initial
        [Op.register 10 (some 1) (some 5) (some 8), Op.register 20 (some 2) none (some 9),
          Op.init_all, Op.emit ⟨SLOG_INFO, [], 5, [], [], 14⟩ 0, Op.teardown_all] = .ok s1
      ∧ ∃ calls, s1.trace = State.initial.trace ++ calls ∧ ∀ f, Call.uninit f ∉ calls :=
  ⟨⟨[], 20, [Call.init 5, Call.handler 2 ⟨SLOG_INFO, [], 5, [], [], 14⟩ 0,
      Call.handler 1 ⟨SLOG_INFO, [], 5, [], [], 14⟩ 0]⟩, rfl,
    uninit_hook_never_called.2.2.1 3
      [Op.register 10 (some 1) (some 5) (some 8), Op.register 20 (some 2) none (some 9),
        Op.init_all, Op.emit ⟨SLOG_INFO, [], 5, [], [], 14⟩ 0, Op.teardown_all]
      State.initial _ rfl⟩

/-- C7 (no deduplication of init): on a well-formed registry two calls of
`slog_init` in a row both complete; the calls made by the two together are the
calls of one `slog_init` repeated, so every init hook is called twice for each
node that stores it. -/
theorem slog_init_twice (s : State) (nodes : List __slog_handler_node) (fuel : Nat)
    (hc : Chain s.heap s.__slog_handlers nodes) (hf : nodes.length < fuel) :
    ∃ s1 s2, slog_init fuel s = .ok s1 ∧ slog_init fuel s1 = .ok s2
      ∧ s1.trace = s.trace ++ nodes.filterMap (fun n => n.init.map Call.init)
      ∧ s2.trace = s.trace ++ (nodes.filterMap (fun n => n.init.map Call.init)
          ++ nodes.filterMap (fun n => n.init.map Call.init))
      ∧ ∀ f : Nat,
          (nodes.filterMap (fun n => n.init.map Call.init)
            ++ nodes.filterMap (fun n => n.init.map Call.init)).count (Call.init f)
          = 2 * nodes.countP (fun n => n.init == some f) := by
  have h1 := slog_init_chain fuel hc hf
  have hc1 : Chain (State.mk s.heap s.__slog_handlers
      (s.trace ++ nodes.filterMap init_call)).heap s.__slog_handlers nodes := hc
  have h2 := slog_init_chain fuel hc1 hf
  refine ⟨_, _, h1, h2, rfl, by simp [init_call]; rfl, ?_⟩
  intro f
  have hcount : (nodes.filterMap (fun n => n.init.map Call.init)).count (Call.init f)
      = nodes.countP (fun n => n.init == some f) := count_init_call f nodes
  rw [List.count_append, hcount]
  omega

/-- Witness of C7: three nodes, two of them with an init hook. -/
theorem slog_init_twice_witness :
    ∃ s1 s2,
      slog_init 4 ⟨[(30, ⟨some 3, some 6, some 9, 20⟩), (20, ⟨none, some 7, none, 10⟩),
          (10, ⟨some 1, none, none, 0⟩)], 30, []⟩ = .ok s1
      ∧ slog_init 4 s1 = .ok s2
      ∧ s1.trace = [Call.init 6, Call.init 7]
      ∧ s2.trace = [Call.init 6, Call.init 7, Call.init 6, Call.init 7] := by
  obtain ⟨s1, s2, h1, h2, h3, h4, _⟩ :=
    slog_init_twice
      ⟨[(30, ⟨some 3, some 6, some 9, 20⟩), (20, ⟨none, some 7, none, 10⟩),
        (10, ⟨some 1, none, none, 0⟩)], 30, []⟩
      [⟨some 3, some 6, some 9, 20⟩, ⟨none, some 7, none, 10⟩, ⟨some 1, none, none, 0⟩] 4
      ⟨by decide, rfl, by decide, rfl, by decide, rfl, rfl⟩ (by decide)
  exact ⟨s1, s2, h1, h2, h3, h4⟩

/-- C8 (register prepends): on a registry made of `nodes`, a registration
whose `malloc` gives a fresh non-null address completes without any call; the
registry afterwards is one new node, storing exactly the three callbacks given,
followed by `nodes` unchanged and in the same order; its length is one more. -/
theorem register_prepends (s : State) (nodes : List __slog_handler_node) (node : Ptr)
    (handler init uninit : FnPtr)
    (hc : Chain s.heap s.__slog_handlers nodes) (hn : node ≠ NULL)
    (hfresh : s.heap.read node = none) :
    ∃ s1 n, slog_handlers_register s node handler init uninit = .ok s1
      ∧ Chain s1.heap s1.__slog_handlers (n :: nodes)
      ∧ n.handler = handler ∧ n.init = init ∧ n.uninit = uninit
      ∧ (n :: nodes).length = nodes.length + 1
      ∧ s1.trace = s.trace :=
  ⟨_, _, slog_handlers_register_ok s node handler init uninit hn,
    slog_handlers_register_chain node handler init uninit hc hn hfresh, rfl, rfl, rfl, rfl, rfl⟩

/-- Witness of C8: a third registration, at address 30, on a registry of two. -/
theorem register_prepends_witness :
    ∃ s1 n,
      slog_handlers_register
          ⟨[(20, ⟨none, some 7, none, 10⟩), (10, ⟨some 1, none, none, 0⟩)], 20, []⟩
          30 (some 3) none (some 9) = .ok s1
      ∧ Chain s1.heap s1.__slog_handlers
          (n :: [⟨none, some 7, none, 10⟩, ⟨some 1, none, none, 0⟩])
      ∧ n.handler = some 3 ∧ n.init = none ∧ n.uninit = some 9
      ∧ (n :: [(⟨none, some 7, none, 10⟩ : __slog_handler_node),
            ⟨some 1, none, none, 0⟩]).length
          = [(⟨none, some 7, none, 10⟩ : __slog_handler_node), ⟨some 1, none, none, 0⟩].length + 1
      ∧ s1.trace = [] :=
  register_prepends
    ⟨[(20, ⟨none, some 7, none, 10⟩), (10, ⟨some 1, none, none, 0⟩)], 20, []⟩
    [⟨none, some 7, none, 10⟩, ⟨some 1, none, none, 0⟩] 30 (some 3) none (some 9)
    ⟨by decide, rfl, by decide, rfl, rfl⟩ (by decide) rfl

/-- C9 (walk of `slog_init`): on a well-formed registry one `slog_init` with
fuel above the number of nodes completes, leaves heap and head as they were,
and makes exactly one call per node whose init hook is present, in list order;
nodes without init hook are skipped and the walk goes on; no handler (and no
uninit hook) is called. -/
theorem slog_init_walk (s : State) (nodes : List __slog_handler_node) (fuel : Nat)
    (hc : Chain s.heap s.__slog_handlers nodes) (hf : nodes.length < fuel) :
    slog_init fuel s
        = .ok { s with trace := s.trace ++ nodes.filterMap (fun n => n.init.map Call.init) }
      ∧ (∀ hs : List Nat, nodes.map (fun n => n.init) = hs.map some →
          nodes.filterMap (fun n => n.init.map Call.init) = hs.map Call.init)
      ∧ (∀ c ∈ nodes.filterMap (fun n => n.init.map Call.init), ∃ f, c = Call.init f)
      ∧ (∀ (f : Nat) (log : slog_t) (args : Ptr),
          Call.handler f log args ∉ nodes.filterMap (fun n => n.init.map Call.init)) := by
  have hshape : ∀ c ∈ nodes.filterMap (fun n => n.init.map Call.init), ∃ f, c = Call.init f := by
    intro c hcm
    obtain ⟨n, _, hn⟩ := List.mem_filterMap.mp hcm
    cases hi : n.init with
    | none => simp [hi] at hn
    | some g => exact ⟨g, by simpa [hi] using hn.symm⟩
  refine ⟨slog_init_chain fuel hc hf, ?_, hshape, ?_⟩
  · intro hs hhs
    rw [← filterMap_some_map _ hs, ← hhs, List.filterMap_map]
    rfl
  · intro f log args hmem
    obtain ⟨g, hg⟩ := hshape _ hmem
    exact Call.noConfusion hg

/-- Witness of C9: three nodes, the last one without init hook. -/
theorem slog_init_walk_witness :
    slog_init 4 ⟨[(30, ⟨some 3, some 6, some 9, 20⟩), (20, ⟨none, some 7, none, 10⟩),
        (10, ⟨some 1, none, none, 0⟩)], 30, []⟩
      = .ok ⟨[(30, ⟨some 3, some 6, some 9, 20⟩), (20, ⟨none, some 7, none, 10⟩),
        (10, ⟨some 1, none, none, 0⟩)], 30, [Call.init 6, Call.init 7]⟩ :=
  (slog_init_walk
    ⟨[(30, ⟨some 3, some 6, some 9, 20⟩), (20, ⟨none, some 7, none, 10⟩),
      (10, ⟨some 1, none, none, 0⟩)], 30, []⟩
    [⟨some 3, some 6, some 9, 20⟩, ⟨none, some 7, none, 10⟩, ⟨some 1, none, none, 0⟩] 4
    ⟨by decide, rfl, by decide, rfl, by decide, rfl, rfl⟩ (by decide)).1

/-- C10 (emit needs no init): on an empty registry (`__slog_handlers = NULL`,
as at process start) `__slog` with any positive fuel completes and changes
nothing, so no callback is called; on any well-formed registry `__slog`
completes and delivers to every present handler whether or not `slog_init` has
run, and the calls it makes are the same after a `slog_init` as without one. -/
theorem emit_needs_no_init (s : State) (fuel : Nat) (log : slog_t) (args : Ptr) :
    (s.__slog_handlers = NULL → __slog (fuel + 1) s log args = .ok s)
      ∧ __slog (fuel + 1) State.initial log args = .ok State.initial
      ∧ ∀ nodes : List __slog_handler_node,
          Chain s.heap s.__slog_handlers nodes → nodes.length < fuel →
          __slog fuel s log args
              = .ok { s with
                  trace := s.trace ++ nodes.filterMap (fun n => n.handler.map (fun f =>
                    Call.handler f log args)) }
            ∧ ∃ s1, slog_init fuel s = .ok s1
                ∧ __slog fuel s1 log args
                  = .ok { s1 with
                      trace := s1.trace ++ nodes.filterMap (fun n => n.handler.map (fun f =>
                        Call.handler f log args)) } := by
  refine ⟨?_, rfl, ?_⟩
  · intro h
    cases s with
    | mk heap head trace =>
      simp only at h
      subst h
      simp [__slog, __slog_loop]
  · intro nodes hc hf
    refine ⟨__slog_chain fuel log args hc hf, _, slog_init_chain fuel hc hf, ?_⟩
    have hc1 : Chain (State.mk s.heap s.__slog_handlers
        (s.trace ++ nodes.filterMap init_call)).heap s.__slog_handlers nodes := hc
    exact __slog_chain fuel log args hc1 hf

/-- Witness of C10: emit on the initial state, and on a registry of two nodes
on which `slog_init` has not run. -/
theorem emit_needs_no_init_witness :
    __slog 1 State.initial ⟨SLOG_INFO, [], 5, [], [], 14⟩ 0 = .ok State.initial
      ∧ __slog 3 ⟨[(20, ⟨some 2, some 7, none, 10⟩), (10, ⟨some 1, none, none, 0⟩)], 20, []⟩
          ⟨SLOG_INFO, [], 5, [], [], 14⟩ 0
        = .ok ⟨[(20, ⟨some 2, some 7, none, 10⟩), (10, ⟨some 1, none, none, 0⟩)], 20,
            [Call.handler 2 ⟨SLOG_INFO, [], 5, [], [], 14⟩ 0,
             Call.handler 1 ⟨SLOG_INFO, [], 5, [], [], 14⟩ 0]⟩ :=
  ⟨(emit_needs_no_init State.initial 0 ⟨SLOG_INFO, [], 5, [], [], 14⟩ 0).1 rfl,
    ((emit_needs_no_init
      ⟨[(20, ⟨some 2, some 7, none, 10⟩), (10, ⟨some 1, none, none, 0⟩)], 20, []⟩ 3
      ⟨SLOG_INFO, [], 5, [], [], 14⟩ 0).2.2
      [⟨some 2, some 7, none, 10⟩, ⟨some 1, none, none, 0⟩]
      ⟨by decide, rfl, by decide, rfl, rfl⟩ (by decide)).1⟩

/-- C13 (severity order): the six levels have the consecutive values 0 to 5,
strictly increasing in the order Trace, Debug, Info, Warn, Error, Fatal. -/
theorem severity_order :
    SLOG_TRACE = 0 ∧ SLOG_DEBUG = 1 ∧ SLOG_INFO = 2 ∧ SLOG_WARN = 3 ∧ SLOG_ERROR = 4
      ∧ SLOG_FATAL = 5
      ∧ SLOG_TRACE < SLOG_DEBUG ∧ SLOG_DEBUG < SLOG_INFO ∧ SLOG_INFO < SLOG_WARN
      ∧ SLOG_WARN < SLOG_ERROR ∧ SLOG_ERROR < SLOG_FATAL :=
  ⟨rfl, rfl, rfl, rfl, rfl, rfl, by decide, by decide, by decide, by decide, by decide⟩

/-- C14 (read-only operations): on a well-formed registry of nodes `nodes`,
`__slog` and `slog_init` complete and leave the heap and `__slog_handlers` as
they were, so the registry is still exactly `nodes`; two emits in a row call
the same function pointers, in the same order (the present handlers of `nodes`
in list order), each emit with its own log and context. -/
theorem read_only_operations (s : State) (nodes : List __slog_handler_node) (fuel : Nat)
    (log : slog_t) (args : Ptr)
    (hc : Chain s.heap s.__slog_handlers nodes) (hf : nodes.length < fuel) :
    (∃ s1, __slog fuel s log args = .ok s1 ∧ s1.heap = s.heap
        ∧ s1.__slog_handlers = s.__slog_handlers ∧ Chain s1.heap s1.__slog_handlers nodes)
      ∧ (∃ s1, slog_init fuel s = .ok s1 ∧ s1.heap = s.heap
        ∧ s1.__slog_handlers = s.__slog_handlers ∧ Chain s1.heap s1.__slog_handlers nodes)
      ∧ (∀ (log2 : slog_t) (args2 : Ptr), ∃ s1 s2,
          __slog fuel s log args = .ok s1 ∧ __slog fuel s1 log2 args2 = .ok s2
          ∧ s1.trace = s.trace
              ++ (nodes.filterMap (fun n => n.handler)).map (fun f => Call.handler f log args)
          ∧ s2.trace = s1.trace
              ++ (nodes.filterMap (fun n => n.handler)).map
                  (fun f => Call.handler f log2 args2)) := by
  have hmap : ∀ (l : slog_t) (a : Ptr), nodes.filterMap (delivery l a)
      = (nodes.filterMap (fun n => n.handler)).map (fun f => Call.handler f l a) := by
    intro l a
    rw [List.map_filterMap]
    rfl
  refine ⟨⟨_, __slog_chain fuel log args hc hf, rfl, rfl, hc⟩,
    ⟨_, slog_init_chain fuel hc hf, rfl, rfl, hc⟩, ?_⟩
  intro log2 args2
  have hc1 : Chain (State.mk s.heap s.__slog_handlers
      (s.trace ++ nodes.filterMap (delivery log args))).heap s.__slog_handlers nodes := hc
  refine ⟨_, _, __slog_chain fuel log args hc hf, __slog_chain fuel log2 args2 hc1 hf, ?_, ?_⟩
  · rw [← hmap]
  · rw [← hmap]

/-- Witness of C14: a registry of three nodes, the middle one without handler. -/
theorem read_only_operations_witness :
    ∃ s1, __slog 4
        ⟨[(30, ⟨some 3, none, some 9, 20⟩), (20, ⟨none, some 7, none, 10⟩),
          (10, ⟨some 1, none, none, 0⟩)], 30, []⟩ ⟨SLOG_INFO, [], 5, [], [], 14⟩ 0 = .ok s1
      ∧ s1.heap = [(30, ⟨some 3, none, some 9, 20⟩), (20, ⟨none, some 7, none, 10⟩),
          (10, ⟨some 1, none, none, 0⟩)]
      ∧ s1.__slog_handlers = 30
      ∧ Chain s1.heap s1.__slog_handlers
          [⟨some 3, none, some 9, 20⟩, ⟨none, some 7, none, 10⟩, ⟨some 1, none, none, 0⟩] :=
  (read_only_operations
    ⟨[(30, ⟨some 3, none, some 9, 20⟩), (20, ⟨none, some 7, none, 10⟩),
      (10, ⟨some 1, none, none, 0⟩)], 30, []⟩
    [⟨some 3, none, some 9, 20⟩, ⟨none, some 7, none, 10⟩, ⟨some 1, none, none, 0⟩] 4
    ⟨SLOG_INFO, [], 5, [], [], 14⟩ 0
    ⟨by decide, rfl, by decide, rfl, by decide, rfl, rfl⟩ (by decide)).1

/-- C15 (level names identify levels): on the six defined levels (the values
0 to 5) `slog_level_string` is injective, and it returns "UNKNOWN" exactly for
the values that are not one of the six. -/
theorem level_names_identify_levels :
    (∀ a b : slog_level_t, 0 ≤ a ∧ a ≤ 5 → 0 ≤ b ∧ b ≤ 5 →
        slog_level_string a = slog_level_string b → a = b)
      ∧ (∀ level : slog_level_t,
          slog_level_string level = "UNKNOWN" ↔ ¬ (0 ≤ level ∧ level ≤ 5)) :=
  ⟨fun a b ha hb h => slog_level_string_injOn a b ha hb h,
    fun level => slog_level_string_unknown_iff level⟩

/-- Witness of C15: "WARN" is returned for 3 only among the six levels, and 9
is not a level. -/
theorem level_names_identify_levels_witness :
    (slog_level_string SLOG_WARN = slog_level_string 3 → SLOG_WARN = 3)
      ∧ slog_level_string 9 = "UNKNOWN" :=
  ⟨level_names_identify_levels.1 SLOG_WARN 3 (by decide) (by decide),
    (level_names_identify_levels.2 9).2 (by decide)⟩

/-- C11, counterexample (build without `SLOG_PTHREAD`, the default): two
threads make one emit each on a registry of two handlers and take turns, one
step each.  Both threads return, and the calls of the two emits alternate: the
events are not the calls of whole emits one after the other. -/
theorem concurrent_delivery_counterexample :
    (Conc.run false
        (Conc.start [(20, ⟨some 2, none, none, 10⟩), (10, ⟨some 1, none, none, 0⟩)] 20
          [[Task.emit ⟨SLOG_INFO, [], 1, [], [], 14⟩ 0],
           [Task.emit ⟨SLOG_WARN, [], 2, [], [], 16⟩ 0]])
        [0, 1, 0, 1, 0, 1, 0, 1, 0, 1, 0, 1]).finished = true
      ∧ (Conc.run false
          (Conc.start [(20, ⟨some 2, none, none, 10⟩), (10, ⟨some 1, none, none, 0⟩)] 20
            [[Task.emit ⟨SLOG_INFO, [], 1, [], [], 14⟩ 0],
             [Task.emit ⟨SLOG_WARN, [], 2, [], [], 16⟩ 0]])
          [0, 1, 0, 1, 0, 1, 0, 1, 0, 1, 0, 1]).events
        = [(0, Call.handler 2 ⟨SLOG_INFO, [], 1, [], [], 14⟩ 0),
           (1, Call.handler 2 ⟨SLOG_WARN, [], 2, [], [], 16⟩ 0),
           (0, Call.handler 1 ⟨SLOG_INFO, [], 1, [], [], 14⟩ 0),
           (1, Call.handler 1 ⟨SLOG_WARN, [], 2, [], [], 16⟩ 0)]
      ∧ ¬ ∃ blocks : List (Nat × slog_t × Ptr),
          (Conc.run false
            (Conc.start [(20, ⟨some 2, none, none, 10⟩), (10, ⟨some 1, none, none, 0⟩)] 20
              [[Task.emit ⟨SLOG_INFO, [], 1, [], [], 14⟩ 0],
               [Task.emit ⟨SLOG_WARN, [], 2, [], [], 16⟩ 0]])
            [0, 1, 0, 1, 0, 1, 0, 1, 0, 1, 0, 1]).events
          = blocks.flatMap
              (emit_block [⟨some 2, none, none, 10⟩, ⟨some 1, none, none, 0⟩]) := by
  refine ⟨rfl, unlocked_emits_interleave, ?_⟩
  rw [unlocked_emits_interleave]
  rintro ⟨blocks, h⟩
  cases blocks with
  | nil => simp at h
  | cons b bs => simp [emit_block, delivery] at h

/-- C11 (concurrent delivery), as amended: threads that only emit, thread `t`
making the emits `progs[t]`, run under any schedule on a well-formed registry
of nodes `nodes`.

In either build (with or without `SLOG_PTHREAD`): the schedule can always be
continued so that every thread returns; when every thread has returned, the
events of each thread are the calls of the emits of its program, one whole
emit after the other in its order (none lost, none twice), and with `M`
threads of `T` emits each every handler has been called `M * T` times for each
node that stores it.

In the build with `SLOG_PTHREAD`: at any moment the events are the calls of
whole emits, one emit after the other, followed by the calls made so far by
the one emit under way, so the calls of two emits are never interleaved; when
every thread has returned the events are the calls of `M * T` whole emits. -/
theorem concurrent_delivery (heap : Heap) (head : Ptr) (nodes : List __slog_handler_node)
    (progs : List (List (slog_t × Ptr))) (sched : List Nat)
    (hc : Chain heap head nodes) :
    (∀ SLOG_PTHREAD : Bool,
        (∃ more, (Conc.run SLOG_PTHREAD
            (Conc.start heap head (progs.map (fun p => p.map emit_task)))
            (sched ++ more)).finished = true)
        ∧ ((Conc.run SLOG_PTHREAD (Conc.start heap head (progs.map (fun p => p.map emit_task)))
              sched).finished = true →
            (∀ t, t < progs.length → ∃ p, progs[t]? = some p
              ∧ (Conc.run SLOG_PTHREAD
                    (Conc.start heap head (progs.map (fun p => p.map emit_task)))
                    sched).events.filter (fun e => e.1 == t)
                = (p.map (fun e => (t, e))).flatMap (emit_block nodes))
            ∧ ∀ T, (∀ p ∈ progs, p.length = T) →
                ∀ f, (Conc.run SLOG_PTHREAD
                      (Conc.start heap head (progs.map (fun p => p.map emit_task)))
                      sched).events.countP (calls_handler f)
                    = progs.length * T * nodes.countP (fun n => n.handler == some f)))
      ∧ (∃ (blocks : List (Nat × slog_t × Ptr)) (b : Nat × slog_t × Ptr)
          (pre post : List __slog_handler_node), nodes = pre ++ post
          ∧ (Conc.run true (Conc.start heap head (progs.map (fun p => p.map emit_task)))
              sched).events
            = blocks.flatMap (emit_block nodes) ++ emit_block pre b)
      ∧ ((Conc.run true (Conc.start heap head (progs.map (fun p => p.map emit_task)))
            sched).finished = true →
          ∃ blocks : List (Nat × slog_t × Ptr),
            (Conc.run true (Conc.start heap head (progs.map (fun p => p.map emit_task)))
                sched).events
              = blocks.flatMap (emit_block nodes)
            ∧ (∀ t, t < progs.length →
                progs[t]? = some ((blocks.filter (fun b => b.1 == t)).map (fun b => b.2)))
            ∧ ∀ T, (∀ p ∈ progs, p.length = T) →
                blocks.length = progs.length * T
                ∧ ∀ f, (Conc.run true
                      (Conc.start heap head (progs.map (fun p => p.map emit_task)))
                      sched).events.countP (calls_handler f)
                    = progs.length * T * nodes.countP (fun n => n.handler == some f)) := by
  obtain ⟨blocks, h⟩ := EmitInv.run_preserved hc sched _ [] (EmitInv.at_start heap head nodes progs)
  refine ⟨?_, ⟨blocks, h.events_blocks⟩, ?_⟩
  · intro b
    have hp := EmitProj.run_kept hc b sched _ (EmitProj.holds_at_start heap head nodes progs)
    refine ⟨?_, ?_⟩
    · cases b with
      | false =>
        obtain ⟨more, hmore⟩ := hp.can_finish_unlocked hc
        exact ⟨more, by rw [Conc.run_append]; exact hmore⟩
      | true =>
        obtain ⟨more, hmore⟩ := h.can_finish hc
        exact ⟨more, by rw [Conc.run_append]; exact hmore⟩
    · intro hfin
      exact ⟨hp.per_thread_finished hfin, fun T hT f => hp.count hfin T hT f⟩
  · intro hfin
    obtain ⟨hev, hprogs⟩ := h.when_finished hfin
    refine ⟨blocks, hev, hprogs, ?_⟩
    intro T hT
    have hlen := blocks_length_of_programs T h.tids hprogs hT
    refine ⟨hlen, ?_⟩
    intro f
    rw [hev, countP_calls_handler_blocks, hlen]

/-- Witness of C11: with `SLOG_PTHREAD`, two threads of two emits each, on a
registry of two handlers, under a schedule in which the threads compete for
the mutex; without `SLOG_PTHREAD`, two threads of one emit each taking turns,
where handler 2 is still called once per emit. -/
theorem concurrent_delivery_witness :
    (∃ blocks : List (Nat × slog_t × Ptr),
      (Conc.run true
          (Conc.start [(20, ⟨some 2, none, none, 10⟩), (10, ⟨some 1, none, none, 0⟩)] 20
            ([[(⟨SLOG_INFO, [], 1, [], [], 14⟩, 0), (⟨SLOG_INFO, [], 2, [], [], 15⟩, 0)],
              [(⟨SLOG_WARN, [], 3, [], [], 24⟩, 0), (⟨SLOG_WARN, [], 4, [], [], 25⟩, 0)]].map
              (fun p => p.map emit_task)))
          ((List.range 48).map (fun i => i % 2))).events
        = blocks.flatMap
            (emit_block [⟨some 2, none, none, 10⟩, ⟨some 1, none, none, 0⟩])
      ∧ blocks.length = 2 * 2)
    ∧ (Conc.run false
          (Conc.start [(20, ⟨some 2, none, none, 10⟩), (10, ⟨some 1, none, none, 0⟩)] 20
            ([[(⟨SLOG_INFO, [], 1, [], [], 14⟩, 0)], [(⟨SLOG_WARN, [], 2, [], [], 16⟩, 0)]].map
              (fun p => p.map emit_task)))
          [0, 1, 0, 1, 0, 1, 0, 1, 0, 1, 0, 1]).events.countP (calls_handler 2)
        = 2 * 1 * 1 := by
  constructor
  · obtain ⟨blocks, hev, _, hcount⟩ :=
      (concurrent_delivery [(20, ⟨some 2, none, none, 10⟩), (10, ⟨some 1, none, none, 0⟩)] 20
        [⟨some 2, none, none, 10⟩, ⟨some 1, none, none, 0⟩]
        [[(⟨SLOG_INFO, [], 1, [], [], 14⟩, 0), (⟨SLOG_INFO, [], 2, [], [], 15⟩, 0)],
          [(⟨SLOG_WARN, [], 3, [], [], 24⟩, 0), (⟨SLOG_WARN, [], 4, [], [], 25⟩, 0)]]
        ((List.range 48).map (fun i => i % 2))
        ⟨by decide, rfl, by decide, rfl, rfl⟩).2.2 (by decide!)
    exact ⟨blocks, hev, (hcount 2 (by decide)).1⟩
  · exact (((concurrent_delivery [(20, ⟨some 2, none, none, 10⟩), (10, ⟨some 1, none, none, 0⟩)]
        20 [⟨some 2, none, none, 10⟩, ⟨some 1, none, none, 0⟩]
        [[(⟨SLOG_INFO, [], 1, [], [], 14⟩, 0)], [(⟨SLOG_WARN, [], 2, [], [], 16⟩, 0)]]
        [0, 1, 0, 1, 0, 1, 0, 1, 0, 1, 0, 1]
        ⟨by decide, rfl, by decide, rfl, rfl⟩).1 false).2 (by decide!)).2 1 (by decide) 2

/-- C12 (registration and the lock, as the code runs, build with
`SLOG_PTHREAD`): on a registry of one node (handler 1 at address 10) thread 0
registers handler 2 (node at 20) and thread 1 registers handler 3 (node at 30).
The first step of a registration fills in the node, reading `__slog_handlers`
into its `next`, and the mutex is still free after it.  When both threads take
that step before either locks, both nodes point to 10; both registrations
return, and the registry is then handler 3 followed by handler 1: the node of
handler 2 is live but not in the list.  When the threads run one after the
other the registry is handler 3, handler 2, handler 1. -/
theorem concurrent_register_loses_entry :
    (Conc.run true
        (Conc.start [(10, ⟨some 1, none, none, 0⟩)] 10
          [[Task.register 20 (some 2) none none], [Task.register 30 (some 3) none none]])
        [0]).__slog_lock = none
      ∧ (Conc.run true
          (Conc.start [(10, ⟨some 1, none, none, 0⟩)] 10
            [[Task.register 20 (some 2) none none], [Task.register 30 (some 3) none none]])
          [0]).threads = [⟨Pc.reg_lock 20, []⟩, ⟨Pc.idle, [Task.register 30 (some 3) none none]⟩]
      ∧ Conc.run true
          (Conc.start [(10, ⟨some 1, none, none, 0⟩)] 10
            [[Task.register 20 (some 2) none none], [Task.register 30 (some 3) none none]])
          [0, 1, 0, 0, 0, 1, 1, 1]
        = ⟨[(30, ⟨some 3, none, none, 10⟩), (20, ⟨some 2, none, none, 10⟩),
            (10, ⟨some 1, none, none, 0⟩)], 30, none, [⟨Pc.idle, []⟩, ⟨Pc.idle, []⟩], []⟩
      ∧ Chain [(30, ⟨some 3, none, none, 10⟩), (20, ⟨some 2, none, none, 10⟩),
            (10, ⟨some 1, none, none, 0⟩)] 30
          [⟨some 3, none, none, 10⟩, ⟨some 1, none, none, 0⟩]
      ∧ (∀ nodes : List __slog_handler_node,
          Chain [(30, ⟨some 3, none, none, 10⟩), (20, ⟨some 2, none, none, 10⟩),
            (10, ⟨some 1, none, none, 0⟩)] 30 nodes →
          ∀ n ∈ nodes, n.handler ≠ some 2)
      ∧ Conc.run true
          (Conc.start [(10, ⟨some 1, none, none, 0⟩)] 10
            [[Task.register 20 (some 2) none none], [Task.register 30 (some 3) none none]])
          [0, 0, 0, 0, 1, 1, 1, 1]
        = ⟨[(30, ⟨some 3, none, none, 20⟩), (20, ⟨some 2, none, none, 10⟩),
            (10, ⟨some 1, none, none, 0⟩)], 30, none, [⟨Pc.idle, []⟩, ⟨Pc.idle, []⟩], []⟩ := by
  have hchain : Chain [(30, ⟨some 3, none, none, 10⟩), (20, ⟨some 2, none, none, 10⟩),
      (10, ⟨some 1, none, none, 0⟩)] 30
      [⟨some 3, none, none, 10⟩, ⟨some 1, none, none, 0⟩] :=
    ⟨by decide, rfl, by decide, rfl, rfl⟩
  refine ⟨rfl, rfl, rfl, hchain, ?_, rfl⟩
  intro nodes hnodes n hn
  rw [Chain.unique hnodes hchain] at hn
  rcases List.mem_cons.mp hn with h1 | h1
  · rw [h1]; decide
  · rcases List.mem_cons.mp h1 with h2 | h2
    · rw [h2]; decide
    · exact absurd h2 (List.not_mem_nil _)

end Slog
